import Mathlib

/-!
Verification of the blame-lsp language server (`src/server.ts`).

Strings from the TypeScript source are embedded as `List Char` (`Str`), so
that JavaScript string operations (`slice`, `substring`, `split`, `trim`,
`startsWith`, …) become plain list functions that can be reasoned about by
induction.  External effects (`git` subprocess calls, `fs.stat`) are modelled
as oracle functions supplied to the embedded code; the single-threaded
event-loop state (the LRU cache) is passed explicitly.
-/

set_option maxRecDepth 4000
set_option linter.unusedSectionVars false

/-- JavaScript strings are embedded as lists of characters. -/
abbrev Str := List Char

/-- Coerce a Lean string literal to the embedding type. -/
def jstr (s : String) : Str := s.data

/-- ASCII whitespace recognised by `String.prototype.trim` (the subset that
occurs in the inputs of interest: space, tab, newline, carriage return). -/
def isWs (c : Char) : Bool := c = ' ' || c = '\t' || c = '\n' || c = '\r'

/-- `s.trim()`: strip whitespace from both ends. -/
def trimJ (s : Str) : Str :=
  ((s.dropWhile isWs).reverse.dropWhile isWs).reverse

/-- `s.startsWith(p)`. -/
def startsWith : Str → Str → Bool
  | [], _ => true
  | _ :: _, [] => false
  | a :: p, b :: s => a = b && startsWith p s

/-- `s.split(c)` for a single-character separator: JavaScript `String.split`
never returns an empty array and keeps empty pieces. -/
def splitOnChar (c : Char) : Str → List Str
  | [] => [[]]
  | a :: t =>
    let r := splitOnChar c t
    if a = c then [] :: r
    else
      match r with
      | h :: t' => (a :: h) :: t'
      | [] => [[a]]

/-- `parts.join(c)` for a single-character separator. -/
def joinChar (c : Char) : List Str → Str
  | [] => []
  | [p] => p
  | p :: ps => p ++ c :: joinChar c ps

/-- Decimal digit character, as produced by JavaScript number-to-string
conversion for a digit value `n < 10`. -/
def digitCh (n : Nat) : Char := Char.ofNat (48 + n)

/-- Fuel-indexed digit expansion (structural recursion so that the kernel
can evaluate it; `fuel` bounds the number of digits). -/
def natCharsAux : Nat → Nat → Str
  | 0, _ => []
  | fuel + 1, n =>
    if n < 10 then [digitCh n]
    else natCharsAux fuel (n / 10) ++ [digitCh (n % 10)]

/-- Decimal rendering of a natural number, as produced by JavaScript template
interpolation `${n}` of a non-negative integer. -/
def natChars (n : Nat) : Str := natCharsAux (n + 1) n

/-- Accumulate the value of a decimal digit string. -/
def digitsToNat (s : Str) : Nat :=
  s.foldl (fun acc c => acc * 10 + (c.toNat - 48)) 0

/-- `Number(s)` restricted to the (possibly signed) decimal integer literals
that occur in `git blame --porcelain` output; `none` models `NaN`.
Non-integer numeric literals do not occur in the inputs covered by the
claims and are mapped to `none`. -/
def jsNumInt (s : Str) : Option Int :=
  if s = [] then some 0
  else if s.all Char.isDigit then some (digitsToNat s)
  else
    match s with
    | '-' :: t => if t ≠ [] ∧ t.all Char.isDigit then some (-(digitsToNat t : Int)) else none
    | '+' :: t => if t ≠ [] ∧ t.all Char.isDigit then some (digitsToNat t) else none
    | _ => none

/-! ### The LRU cache (`class LruCache<K, V>`, server.ts lines 33–54)

A JavaScript `Map` preserves insertion order and holds at most one entry per
key; it is embedded as an association list whose head is the oldest entry. -/

section Lru

variable {K V : Type} [DecidableEq K]

/-- `this.map.get(key)` (value lookup only, no reordering). -/
def lruLookup (k : K) : List (K × V) → Option V
  | [] => none
  | q :: t => if q.1 = k then some q.2 else lruLookup k t

/-- `this.map.delete(key)`. -/
def eraseKeyL (k : K) : List (K × V) → List (K × V)
  | [] => []
  | q :: t => if q.1 = k then eraseKeyL k t else q :: eraseKeyL k t

/-- `while (this.map.size > this.max) this.map.delete(oldestKey)`: while the
map holds more than `max` entries, delete the oldest (the list head).  For a
non-empty list `a :: t`, the loop guard `size > max` is `t.length ≥ max`;
structural recursion keeps the definition kernel-evaluable. -/
def evictLoop (max : Nat) : List (K × V) → List (K × V)
  | [] => []
  | a :: t => if t.length ≥ max then evictLoop max t else a :: t

/-- `get(key)`: on a hit the entry is deleted and re-inserted at the
most-recently-used end; returns the value (or `none` for a miss) and the
updated map. -/
def lruGet (k : K) (st : List (K × V)) : Option V × List (K × V) :=
  match lruLookup k st with
  | none => (none, st)
  | some v => (some v, eraseKeyL k st ++ [(k, v)])

/-- `set(key, value)`: delete any old entry, append, then evict from the
oldest end while over capacity. -/
def lruSet (max : Nat) (k : K) (v : V) (st : List (K × V)) : List (K × V) :=
  evictLoop max (eraseKeyL k st ++ [(k, v)])

/-- `clear()`. -/
def lruClear (_st : List (K × V)) : List (K × V) := []

/-- A `get` or `set` request against the cache. -/
inductive LruOp (K V : Type) where
  | get (k : K)
  | set (k : K) (v : V)

/-- The key an operation touches. -/
def opKey : LruOp K V → K
  | .get k => k
  | .set k _ => k

/-- Whether an operation accesses key `k` (both `get` and `set` count). -/
def touches (o : LruOp K V) (k : K) : Bool := opKey o = k

/-- Apply one operation to the cache state, keeping only the state. -/
def applyOp (max : Nat) (st : List (K × V)) : LruOp K V → List (K × V)
  | .get k => (lruGet k st).2
  | .set k v => lruSet max k v st

/-- Run a sequence of operations from the empty cache. -/
def runOps (max : Nat) (ops : List (LruOp K V)) : List (K × V) :=
  ops.foldl (applyOp max) []

/-- Index of the last operation in `ops` that accesses `k`. -/
def lastAcc : List (LruOp K V) → K → Option Nat
  | [], _ => none
  | o :: rest, k =>
    match lastAcc rest k with
    | some i => some (i + 1)
    | none => if touches o k then some 0 else none

end Lru

/-! ### Attribution records and the blame parser (server.ts lines 26–31, 153–174) -/

/-- `type BlameInfo` (server.ts lines 26–31). -/
structure BlameInfo where
  commit : Str
  author : Option Str := none
  authorTime : Option Int := none
  summary : Option Str := none
  deriving DecidableEq

/-- One step of the parsing loop of `parseBlamePorcelain`
(the `for (const line of lines)` body). -/
def parseStep (info : BlameInfo) (line : Str) : BlameInfo :=
  if startsWith (jstr "author ") line then
    { info with author := some (trimJ (line.drop 7)) }
  else if startsWith (jstr "author-time ") line then
    match jsNumInt (trimJ (line.drop 12)) with
    | some n => { info with authorTime := some n }
    | none => info
  else if startsWith (jstr "summary ") line then
    { info with summary := some (trimJ (line.drop 8)) }
  else info

/-- `parseBlamePorcelain` (server.ts lines 153–174). -/
def parseBlamePorcelain (porcelain : Str) : Option BlameInfo :=
  let lines := splitOnChar '\n' porcelain
  let first := trimJ (lines.headD [])
  if first = [] then none
  else
    let commit := (splitOnChar ' ' first).headD []
    if commit = [] then none
    else some (lines.foldl parseStep { commit := commit })

/-! ### Relative time and the label formatter (server.ts lines 132–151, 218–234) -/

/-- The plural-suffix expression `${n > 1 ? "s" : ""}`. -/
def pluralS (n : Nat) : Str := if n > 1 then jstr "s" else []

/-- The bucket cascade of `relativeFromUnixSeconds` applied to the clamped
elapsed seconds (server.ts lines 134–150). -/
def relPhrase (diffSec : Nat) : Str :=
  if diffSec < 10 then jstr "just now"
  else if diffSec < 60 then natChars diffSec ++ jstr " sec" ++ pluralS diffSec ++ jstr " ago"
  else
    let mins := diffSec / 60
    if mins < 60 then natChars mins ++ jstr " min" ++ pluralS mins ++ jstr " ago"
    else
      let hours := mins / 60
      if hours < 24 then natChars hours ++ jstr " hour" ++ pluralS hours ++ jstr " ago"
      else
        let days := hours / 24
        if days < 30 then natChars days ++ jstr " day" ++ pluralS days ++ jstr " ago"
        else
          let months := days / 30
          if months < 12 then natChars months ++ jstr " month" ++ pluralS months ++ jstr " ago"
          else
            let years := days / 365
            natChars years ++ jstr " year" ++ pluralS years ++ jstr " ago"

/-- `relativeFromUnixSeconds(sec, nowMs)` (server.ts lines 132–151).
`Math.max(0, Math.floor((nowMs - sec * 1000) / 1000))` is floor division on
integers clamped at zero, i.e. `Int.toNat ∘ Int.fdiv`. -/
def relativeFromUnixSeconds (sec : Int) (nowMs : Int) : Str :=
  relPhrase ((nowMs - sec * 1000).fdiv 1000).toNat

/-- The summary truncation expression of `formatBlameLabel`:
`summary.length > maxLen ? summary.substring(0, 80) + "…" : summary`
with `maxLen = 60` (server.ts lines 224–226). -/
def truncateSummary (summary : Str) : Str :=
  if summary.length > 60 then summary.take 80 ++ jstr "…" else summary

/-- `formatBlameLabel` (server.ts lines 218–234).  The implicit
`Date.now()` used by `relativeFromUnixSeconds` is passed explicitly as
`nowMs`.  Destructuring defaults supply "Unknown author" and `""`. -/
def formatBlameLabel (nowMs : Int) (info : BlameInfo) : Str :=
  let author := info.author.getD (jstr "Unknown author")
  let summary := info.summary.getD []
  let message := truncateSummary summary
  let when :=
    match info.authorTime with
    | some t => relativeFromUnixSeconds t nowMs
    | none => jstr "unknown date"
  jstr "⎇ " ++ author ++ jstr ", " ++ when ++ jstr " · " ++ message ++ jstr " ↗"

/-! ### Remote URL normalisation and the permalink builder
(server.ts lines 236–250, 267–279) -/

/-- `s.replace(/\.git$/, "")`: remove a trailing `.git`. -/
def stripDotGit (s : Str) : Str :=
  if s.reverse.take 4 = jstr "tig." then (s.reverse.drop 4).reverse else s

/-- `s.replace(/\/$/, "")`: remove a single trailing slash. -/
def stripTrailingSlash (s : Str) : Str :=
  if s.reverse.take 1 = jstr "/" then (s.reverse.drop 1).reverse else s

/-- The ECMAScript line terminators, which `.` in a (non-dotAll) regex does
not match: LF, CR, U+2028 and U+2029. -/
def isLineTerm (c : Char) : Bool :=
  c = '\n' || c = '\r' || c = Char.ofNat 0x2028 || c = Char.ofNat 0x2029

/-- `r.match(/^git@([^:]+):(.+)$/)`: host is the non-empty maximal run
before the first `:`; the remainder must be non-empty and (because `.`
does not match line terminators and `$` is not multiline) contain no
line terminator. -/
def scpMatch (r : Str) : Option (Str × Str) :=
  if startsWith (jstr "git@") r then
    let t := r.drop 4
    let host := t.takeWhile (fun c => c ≠ ':')
    let rest := t.drop (host.length + 1)
    if host ≠ [] ∧ host.length < t.length ∧ rest ≠ [] ∧
        (∀ c ∈ rest, isLineTerm c = false) then
      some (host, rest)
    else none
  else none

/-- `r.match(/^ssh:\/\/git@([^/]+)\/(.+)$/)`, with the same line-terminator
exclusion on the remainder. -/
def sshMatch (r : Str) : Option (Str × Str) :=
  if startsWith (jstr "ssh://git@") r then
    let t := r.drop 10
    let host := t.takeWhile (fun c => c ≠ '/')
    let rest := t.drop (host.length + 1)
    if host ≠ [] ∧ host.length < t.length ∧ rest ≠ [] ∧
        (∀ c ∈ rest, isLineTerm c = false) then
      some (host, rest)
    else none
  else none

/-- `normaliseRemoteToHttps` (server.ts lines 236–250). -/
def normaliseRemoteToHttps (remote : Str) : Option Str :=
  let r := stripDotGit (trimJ remote)
  if startsWith (jstr "http://") r || startsWith (jstr "https://") r then some r
  else
    match scpMatch r with
    | some (host, rest) => some (jstr "https://" ++ host ++ jstr "/" ++ rest)
    | none =>
      match sshMatch r with
      | some (host, rest) => some (jstr "https://" ++ host ++ jstr "/" ++ rest)
      | none => none

/-- Characters `encodeURIComponent` leaves unescaped:
`A–Z a–z 0–9 - _ . ! ~ * ' ( )`. -/
def isUriUnreserved (c : Char) : Bool :=
  c.isAlpha || c.isDigit ||
    c = '-' || c = '_' || c = '.' || c = '!' || c = '~' || c = '*' ||
    c = Char.ofNat 39 || c = '(' || c = ')'

/-- Uppercase hexadecimal digit. -/
def hexDigitCh (n : Nat) : Char :=
  if n < 10 then digitCh n else Char.ofNat (55 + n)

/-- UTF-8 bytes of a character (as used by `encodeURIComponent`). -/
def utf8Bytes (c : Char) : List Nat :=
  let n := c.toNat
  if n < 0x80 then [n]
  else if n < 0x800 then [0xC0 + n / 64, 0x80 + n % 64]
  else if n < 0x10000 then [0xE0 + n / 4096, 0x80 + n / 64 % 64, 0x80 + n % 64]
  else [0xF0 + n / 262144, 0x80 + n / 4096 % 64, 0x80 + n / 64 % 64, 0x80 + n % 64]

/-- Percent-encoding of a single character. -/
def encChar (c : Char) : Str :=
  if isUriUnreserved c then [c]
  else (utf8Bytes c).foldr (fun b acc => '%' :: hexDigitCh (b / 16) :: hexDigitCh (b % 16) :: acc) []

/-- `encodeURIComponent(s)`. -/
def encodeURIComponent (s : Str) : Str := (s.map encChar).flatten

/-- `path.sep`: the POSIX path separator (the deployment platform is
modelled as POSIX; on Windows this would be `'\\'`). -/
def pathSep : Char := '/'

/-- `buildFileUrl` (server.ts lines 267–279). -/
def buildFileUrl (remoteHttps relPath commit : Str) (oneBasedLine : Nat) : Str :=
  let base := stripTrailingSlash remoteHttps
  let p := joinChar '/' (splitOnChar pathSep relPath)
  let encPath := joinChar '/' ((splitOnChar '/' p).map encodeURIComponent)
  base ++ jstr "/blob/" ++ encodeURIComponent commit ++ jstr "/" ++ encPath
    ++ jstr "#L" ++ natChars oneBasedLine

/-! ### The cached blame query (server.ts lines 99–118, 202–216)

`computeKey` and `blameSingleLineUncached` call `git`/`fs`; they are
modelled as oracle functions in a `BlameEnv`.  The volatility-token string
produced by `computeKey` (`JSON.stringify({head, mtimeMs, size})`) is the
`key` field of the oracle's answer. -/

/-- Result of `computeKey` (server.ts lines 99–118). -/
structure CkRes where
  root : Str
  rel : Str
  key : Str
  deriving DecidableEq

/-- The external world seen by the cached blame query: `computeKey`
(git root + HEAD + `fs.stat`, collapsed into its returned record) and
`blameSingleLineUncached` (the `git blame` subprocess plus parser). -/
structure BlameEnv where
  computeKey : Str → Option CkRes
  blame : Str → Str → Nat → Option BlameInfo

/-- The composite cache key `` `${filePath}::${oneBasedLine}::${ck.key}` ``. -/
def cacheKeyOf (filePath : Str) (oneBasedLine : Nat) (key : Str) : Str :=
  filePath ++ jstr "::" ++ natChars oneBasedLine ++ jstr "::" ++ key

/-- Whether a string contains `::` as a substring (proof device used to show
the composite cache key is injective: the volatility-token strings produced
by `computeKey` are JSON objects, which contain no `::`). -/
def hasCC : Str → Bool
  | [] => false
  | [_] => false
  | a :: b :: t => (a = ':' && b = ':') || hasCC (b :: t)

/-- Split a string at its first `::` occurrence (proof device). -/
def splitFirstColons : Str → Option (Str × Str)
  | [] => none
  | [_] => none
  | a :: b :: t =>
    if a = ':' ∧ b = ':' then some ([], t)
    else (splitFirstColons (b :: t)).map (fun pr => (a :: pr.1, pr.2))

/-- Recover `(filePath, line digits, token)` from a composite cache key by
splitting at the two final `::` separators (proof device for injectivity). -/
def decodeCacheKey (s : Str) : Option (Str × Str × Str) :=
  (splitFirstColons s.reverse).bind fun pr1 =>
    (splitFirstColons pr1.2).bind fun pr2 =>
      some (pr2.2.reverse, pr2.1.reverse, pr1.1.reverse)

/-- The cache state: `new LruCache<string, BlameInfo | null>(800)`. -/
abbrev LineCache := List (Str × Option BlameInfo)

/-- The capacity of `lineCache` (server.ts line 57). -/
def lineCacheMax : Nat := 800

/-- `blameSingleLineCached` (server.ts lines 202–216).  Returns the blame
result, the updated cache, and whether an external blame invocation was
performed. -/
def blameSingleLineCached (env : BlameEnv) (filePath : Str) (oneBasedLine : Nat)
    (cache : LineCache) : Option BlameInfo × LineCache × Bool :=
  match env.computeKey filePath with
  | none => (none, cache, false)
  | some ck =>
    let cacheKey := cacheKeyOf filePath oneBasedLine ck.key
    match lruGet cacheKey cache with
    | (some cached, cache') => (cached, cache', false)
    | (none, cache') =>
      let info := env.blame ck.root ck.rel oneBasedLine
      (info, lruSet lineCacheMax cacheKey info cache', true)

/-- `documents.onDidSave(() => { lineCache.clear(); })`
(server.ts lines 305–307). -/
def onDidSave (cache : LineCache) : LineCache := lruClear cache

/-! ### The follow-up (open permalink) command handler
(server.ts lines 338–377) -/

/-- What the handler does: nothing (an early `return`), a warning message,
or a request to open a URL externally. -/
inductive ExecOutcome where
  | silent
  | warn (msg : Str)
  | openExternal (url : Str)
  deriving DecidableEq

/-- `CMD_OPEN` (server.ts line 59). -/
def CMD_OPEN : Str := jstr "blame-lsp.openRemoteForLine"

/-- `connection.onExecuteCommand` (server.ts lines 338–377).
`uriToFsPath` is the oracle `resolvePath`; `computeKey` and
`getOriginRemote` are oracles `ck` and `remote`; the result of
`blameSingleLineCached` is the oracle `blameRes` (the cache only affects
whether a subprocess runs, not which value the handler sees).  JavaScript
falsiness of `uri`/`oneBasedLine` is `uri = "" `/`line = 0`. -/
def onExecuteCommand (command : Str) (args : Option (Str × Nat))
    (resolvePath : Str → Option Str) (ck : Str → Option CkRes)
    (remote : Str → Option Str) (blameRes : Str → Nat → Option BlameInfo) :
    ExecOutcome :=
  if command ≠ CMD_OPEN then .silent
  else
    match args with
    | none => .silent
    | some (uri, oneBasedLine) =>
      if uri = [] ∨ oneBasedLine = 0 then .silent
      else
        match resolvePath uri with
        | none => .silent
        | some filePath =>
          match ck filePath with
          | none => .warn (jstr "Not in a git repo (or git not available).")
          | some ckr =>
            match remote ckr.root, blameRes filePath oneBasedLine with
            | none, _ => .warn (jstr "No 'origin' remote found.")
            | some _, none => .warn (jstr "No blame info for that line.")
            | some rem, some inf =>
              match normaliseRemoteToHttps rem with
              | none => .warn (jstr "Unsupported remote URL: " ++ rem)
              | some remoteHttps =>
                .openExternal (buildFileUrl remoteHttps ckr.rel inf.commit oneBasedLine)

/-! ### Supporting lemmas: strings and digits -/

theorem startsWith_append (p s : Str) : startsWith p (p ++ s) = true := by
  induction p with
  | nil => rfl
  | cons a t ih => simp [startsWith, ih]

theorem startsWith_eq_true_iff {p s : Str} :
    startsWith p s = true ↔ ∃ r, s = p ++ r := by
  induction p generalizing s with
  | nil => simp [startsWith]
  | cons a t ih =>
    cases s with
    | nil => simp [startsWith]
    | cons b u =>
      simp only [startsWith, Bool.and_eq_true, decide_eq_true_eq, ih, List.cons_append,
        List.cons.injEq]
      constructor
      · rintro ⟨rfl, r, rfl⟩; exact ⟨r, rfl, rfl⟩
      · rintro ⟨r, rfl, rfl⟩; exact ⟨rfl, r, rfl⟩

theorem natCharsAux_indep : ∀ (n f g : Nat), n < f → n < g →
    natCharsAux f n = natCharsAux g n := by
  intro n
  induction n using Nat.strong_induction_on with
  | _ n ih =>
    intro f g hf hg
    match f, g with
    | f + 1, g + 1 =>
      simp only [natCharsAux]
      split
      · rfl
      · rename_i h10
        have hlt : n / 10 < n := Nat.div_lt_self (by omega) (by omega)
        rw [ih (n / 10) hlt f (g + 1) (by omega) (by omega),
          ih (n / 10) hlt (g + 1) g (by omega) (by omega)]

theorem natChars_unfold (n : Nat) :
    natChars n = if n < 10 then [digitCh n] else natChars (n / 10) ++ [digitCh (n % 10)] := by
  by_cases h : n < 10
  · simp [natChars, natCharsAux, h]
  · have h1 : natChars n = natCharsAux n (n / 10) ++ [digitCh (n % 10)] := by
      show natCharsAux (n + 1) n = _
      simp [natCharsAux, h]
    rw [h1, if_neg h, natCharsAux_indep (n / 10) n (n / 10 + 1)
      (by omega) (by omega)]
    rfl

theorem digitCh_toNat {n : Nat} (h : n < 10) : (digitCh n).toNat = 48 + n := by
  interval_cases n <;> decide

theorem digitCh_isDigit {n : Nat} (h : n < 10) : (digitCh n).isDigit = true := by
  interval_cases n <;> decide

theorem natChars_all_digit : ∀ (n : Nat), ∀ c ∈ natChars n, c.isDigit = true := by
  intro n
  induction n using Nat.strong_induction_on with
  | _ n ih =>
    rw [natChars_unfold]
    split
    · rename_i h
      intro c hc
      simp only [List.mem_singleton] at hc
      exact hc ▸ digitCh_isDigit h
    · rename_i h
      intro c hc
      rcases List.mem_append.1 hc with h1 | h1
      · exact ih (n / 10) (Nat.div_lt_self (by omega) (by omega)) c h1
      · simp only [List.mem_singleton] at h1
        exact h1 ▸ digitCh_isDigit (Nat.mod_lt _ (by omega))

theorem natChars_ne_nil (n : Nat) : natChars n ≠ [] := by
  rw [natChars_unfold]
  split
  · simp
  · simp

theorem isDigit_ne_colon {c : Char} (h : c.isDigit = true) : c ≠ ':' := by
  intro hc; subst hc; exact absurd h (by decide)

theorem isDigit_not_ws {c : Char} (h : c.isDigit = true) : isWs c = false := by
  cases hw : isWs c
  · rfl
  · exfalso
    simp only [isWs, Bool.or_eq_true, decide_eq_true_eq] at hw
    rcases hw with ((h1 | h1) | h1) | h1 <;> (subst h1; exact absurd h (by decide))

theorem digitsToNat_append_single (l : Str) (c : Char) :
    digitsToNat (l ++ [c]) = digitsToNat l * 10 + (c.toNat - 48) := by
  simp [digitsToNat, List.foldl_append]

theorem digitsToNat_natChars : ∀ n : Nat, digitsToNat (natChars n) = n := by
  intro n
  induction n using Nat.strong_induction_on with
  | _ n ih =>
    rw [natChars_unfold]
    split
    · rename_i h
      simp [digitsToNat, digitCh_toNat h]
    · rename_i h
      rw [digitsToNat_append_single, ih (n / 10) (Nat.div_lt_self (by omega) (by omega)),
        digitCh_toNat (Nat.mod_lt _ (by omega))]
      omega

theorem natChars_inj {m n : Nat} (h : natChars m = natChars n) : m = n := by
  have := digitsToNat_natChars m
  rw [h, digitsToNat_natChars] at this
  omega

theorem jsNumInt_natChars (n : Nat) : jsNumInt (natChars n) = some (n : Int) := by
  have hall : (natChars n).all Char.isDigit = true :=
    List.all_eq_true.2 (fun c hc => natChars_all_digit n c hc)
  simp [jsNumInt, natChars_ne_nil n, hall, digitsToNat_natChars]

theorem trimJ_of_no_ws {s : Str} (h : ∀ c ∈ s, isWs c = false) : trimJ s = s := by
  have hdw : ∀ t : Str, (∀ c ∈ t, isWs c = false) → t.dropWhile isWs = t := by
    intro t ht
    cases t with
    | nil => rfl
    | cons a u => rw [List.dropWhile_cons_of_neg (by simp [ht a (by simp)])]
  rw [trimJ, hdw s h, hdw s.reverse (fun c hc => h c (List.mem_reverse.1 hc)),
    List.reverse_reverse]

theorem trimJ_of_all_ws {s : Str} (h : ∀ c ∈ s, isWs c = true) : trimJ s = [] := by
  have h1 : s.dropWhile isWs = [] := List.dropWhile_eq_nil_iff.2 (fun c hc => by simp [h c hc])
  rw [trimJ, h1]
  rfl

/-! ### Supporting lemmas: splitting and joining -/

theorem splitOnChar_ne_nil (c : Char) (s : Str) : splitOnChar c s ≠ [] := by
  cases s with
  | nil => simp [splitOnChar]
  | cons a t =>
    simp only [splitOnChar]
    split
    · simp
    · split <;> simp

theorem mem_of_mem_splitOnChar {c : Char} {s : Str} :
    ∀ l ∈ splitOnChar c s, ∀ a ∈ l, a ∈ s := by
  induction s with
  | nil =>
    intro l hl a ha
    simp only [splitOnChar, List.mem_singleton] at hl
    subst hl
    simp at ha
  | cons b t ih =>
    intro l hl a ha
    simp only [splitOnChar] at hl
    split at hl
    · rcases List.mem_cons.1 hl with rfl | hl
      · simp at ha
      · exact List.mem_cons_of_mem _ (ih l hl a ha)
    · rename_i hb
      rcases hr : splitOnChar c t with _ | ⟨h0, t0⟩
      · exact absurd hr (splitOnChar_ne_nil c t)
      · rw [hr] at hl
        rcases List.mem_cons.1 hl with rfl | hl
        · rcases List.mem_cons.1 ha with rfl | ha
          · simp
          · exact List.mem_cons_of_mem _ (ih h0 (by rw [hr]; simp) a ha)
        · exact List.mem_cons_of_mem _ (ih l (by rw [hr]; exact List.mem_cons_of_mem _ hl) a ha)

theorem joinChar_splitOnChar (c : Char) (s : Str) :
    joinChar c (splitOnChar c s) = s := by
  induction s with
  | nil => rfl
  | cons a t ih =>
    simp only [splitOnChar]
    split
    · rename_i h
      subst h
      rcases hr : splitOnChar a t with _ | ⟨h0, t0⟩
      · exact absurd hr (splitOnChar_ne_nil a t)
      · rw [hr] at ih
        show joinChar a ([] :: h0 :: t0) = a :: t
        simp only [joinChar]
        rw [ih]
        rfl
    · rcases hr : splitOnChar c t with _ | ⟨h0, t0⟩
      · exact absurd hr (splitOnChar_ne_nil c t)
      · rw [hr] at ih
        cases t0 with
        | nil => simpa [joinChar] using congrArg (a :: ·) ih
        | cons h1 t1 =>
          show joinChar c ((a :: h0) :: h1 :: t1) = a :: t
          simp only [joinChar] at ih ⊢
          rw [List.cons_append, ih]

theorem takeWhile_append_cons {p : Char → Bool} {xs : Str} {y : Char} {ys : Str}
    (hxs : ∀ x ∈ xs, p x = true) (hy : p y = false) :
    (xs ++ y :: ys).takeWhile p = xs := by
  induction xs with
  | nil => simp [List.takeWhile_cons, hy]
  | cons a t ih =>
    rw [List.cons_append, List.takeWhile_cons]
    simp [hxs a (by simp), ih (fun x hx => hxs x (by simp [hx]))]

/-! ### Supporting lemmas: the LRU cache -/

section LruLemmas

variable {K V : Type} [DecidableEq K]

theorem lruLookup_eq_none_iff {k : K} {st : List (K × V)} :
    lruLookup k st = none ↔ ∀ q ∈ st, q.1 ≠ k := by
  induction st with
  | nil => simp [lruLookup]
  | cons q t ih =>
    simp only [lruLookup]
    split
    · rename_i h
      simp only [List.mem_cons]
      constructor
      · intro hn; exact absurd hn (by simp)
      · intro hall; exact absurd h (hall q (Or.inl rfl))
    · rename_i h
      simp only [ih, List.mem_cons]
      constructor
      · rintro hall q' (rfl | hq')
        · exact h
        · exact hall q' hq'
      · intro hall q' hq'; exact hall q' (Or.inr hq')

theorem lruLookup_mem {k : K} {v : V} {st : List (K × V)}
    (h : lruLookup k st = some v) : (k, v) ∈ st := by
  induction st with
  | nil => simp [lruLookup] at h
  | cons q t ih =>
    simp only [lruLookup] at h
    split at h
    · rename_i hq
      cases h
      rcases q with ⟨qk, qv⟩
      cases hq
      simp
    · exact List.mem_cons_of_mem _ (ih h)

theorem mem_eraseKeyL {k : K} {q : K × V} {st : List (K × V)}
    (h : q ∈ eraseKeyL k st) : q ∈ st ∧ q.1 ≠ k := by
  induction st with
  | nil => simp [eraseKeyL] at h
  | cons p t ih =>
    simp only [eraseKeyL] at h
    split at h
    · exact ⟨List.mem_cons_of_mem _ (ih h).1, (ih h).2⟩
    · rename_i hp
      rcases List.mem_cons.1 h with rfl | h
      · exact ⟨List.mem_cons_self _ _, hp⟩
      · exact ⟨List.mem_cons_of_mem _ (ih h).1, (ih h).2⟩

theorem eraseKeyL_sublist (k : K) (st : List (K × V)) :
    List.Sublist (eraseKeyL k st) st := by
  induction st with
  | nil => simp [eraseKeyL]
  | cons p t ih =>
    simp only [eraseKeyL]
    split
    · exact ih.cons p
    · exact ih.cons₂ p

theorem eraseKeyL_eq_self {k : K} {st : List (K × V)}
    (h : ∀ q ∈ st, q.1 ≠ k) : eraseKeyL k st = st := by
  induction st with
  | nil => rfl
  | cons p t ih =>
    simp only [eraseKeyL]
    rw [if_neg (h p (List.mem_cons_self _ _)), ih (fun q hq => h q (List.mem_cons_of_mem _ hq))]

theorem eraseKeyL_no_key (k : K) (st : List (K × V)) :
    ∀ q ∈ eraseKeyL k st, q.1 ≠ k := fun _ hq => (mem_eraseKeyL hq).2

theorem eraseKeyL_length_lt {k : K} {v : V} {st : List (K × V)}
    (h : lruLookup k st = some v) : (eraseKeyL k st).length < st.length := by
  induction st with
  | nil => simp [lruLookup] at h
  | cons p t ih =>
    simp only [lruLookup] at h
    simp only [eraseKeyL]
    split at h <;> rename_i hp
    · rw [if_pos hp]
      exact Nat.lt_succ_of_le (eraseKeyL_sublist k t).length_le
    · rw [if_neg hp]
      simpa using ih h

theorem evictLoop_eq_drop (max : Nat) : ∀ l : List (K × V),
    evictLoop max l = l.drop (l.length - max) := by
  intro l
  induction l with
  | nil => simp [evictLoop]
  | cons a t ih =>
    simp only [evictLoop]
    split
    · rename_i h
      rw [ih]
      have : (a :: t).length - max = (t.length - max) + 1 := by
        simp only [List.length_cons]; omega
      rw [this, List.drop_succ_cons]
    · rename_i h
      have : (a :: t).length - max = 0 := by
        simp only [List.length_cons]; omega
      rw [this, List.drop_zero]

theorem evictLoop_length_le (max : Nat) (l : List (K × V)) :
    (evictLoop max l).length ≤ max := by
  rw [evictLoop_eq_drop, List.length_drop]
  omega

theorem evictLoop_sublist (max : Nat) (l : List (K × V)) :
    List.Sublist (evictLoop max l) l := by
  rw [evictLoop_eq_drop]
  exact List.drop_sublist _ _

theorem lruLookup_append_last {k : K} {v : V} {l : List (K × V)}
    (h : ∀ q ∈ l, q.1 ≠ k) : lruLookup k (l ++ [(k, v)]) = some v := by
  induction l with
  | nil => simp [lruLookup]
  | cons p t ih =>
    rw [List.cons_append]
    simp only [lruLookup]
    rw [if_neg (h p (List.mem_cons_self _ _))]
    exact ih (fun q hq => h q (List.mem_cons_of_mem _ hq))

theorem lruLookup_lruSet_self {max : Nat} (hmax : 1 ≤ max) (k : K) (v : V)
    (st : List (K × V)) : lruLookup k (lruSet max k v st) = some v := by
  rw [lruSet, evictLoop_eq_drop]
  set E := eraseKeyL k st with hE
  have hlen : (E ++ [(k, v)]).length - max ≤ E.length := by
    simp only [List.length_append, List.length_singleton]; omega
  rw [List.drop_append_of_le_length hlen]
  exact lruLookup_append_last fun q hq =>
    eraseKeyL_no_key k st q (List.Sublist.mem hq (List.drop_sublist _ _))

end LruLemmas

/-! ### The recency invariant: the cache list is ordered by last access -/

section LruInvariant

variable {K V : Type} [DecidableEq K]

/-- Entry `a` was last accessed strictly before entry `b`. -/
def RecRel (ops : List (LruOp K V)) (a b : K × V) : Prop :=
  ∀ i j, lastAcc ops a.1 = some i → lastAcc ops b.1 = some j → i < j

/-- Every cache entry has been accessed, and the list is ordered from least
recently accessed (head) to most recently accessed (last). -/
def Tracked (ops : List (LruOp K V)) (st : List (K × V)) : Prop :=
  (∀ q ∈ st, (lastAcc ops q.1).isSome = true) ∧ st.Pairwise (RecRel ops)

theorem lastAcc_concat (ops : List (LruOp K V)) (o : LruOp K V) (k : K) :
    lastAcc (ops ++ [o]) k = if touches o k then some ops.length else lastAcc ops k := by
  induction ops with
  | nil => simp [lastAcc]
  | cons o' rest ih =>
    rw [List.cons_append]
    simp only [lastAcc, ih, List.length_cons]
    by_cases ht : touches o k <;> simp [ht, lastAcc]

theorem lastAcc_lt_length {ops : List (LruOp K V)} {k : K} {i : Nat}
    (h : lastAcc ops k = some i) : i < ops.length := by
  induction ops generalizing i with
  | nil => simp [lastAcc] at h
  | cons o rest ih =>
    rcases hr : lastAcc rest k with _ | j
    · simp only [lastAcc, hr] at h
      split at h
      · cases h; simp
      · exact Option.noConfusion h
    · simp only [lastAcc, hr] at h
      cases h
      exact Nat.succ_lt_succ (ih hr)

theorem lastAcc_concat_untouched {ops : List (LruOp K V)} {o : LruOp K V} {k : K}
    (h : k ≠ opKey o) : lastAcc (ops ++ [o]) k = lastAcc ops k := by
  rw [lastAcc_concat, if_neg]
  simp only [touches, decide_eq_true_eq]
  exact fun hc => h hc.symm

theorem lastAcc_concat_touched (ops : List (LruOp K V)) (o : LruOp K V) :
    lastAcc (ops ++ [o]) (opKey o) = some ops.length := by
  rw [lastAcc_concat, if_pos]
  simp [touches]

/-- Extending the log with an operation that touches no present key
preserves the invariant. -/
theorem tracked_untouched {ops : List (LruOp K V)} {st : List (K × V)}
    {o : LruOp K V} (h : Tracked ops st) (hk : ∀ q ∈ st, q.1 ≠ opKey o) :
    Tracked (ops ++ [o]) st := by
  refine ⟨fun q hq => ?_, ?_⟩
  · rw [lastAcc_concat_untouched (hk q hq)]
    exact h.1 q hq
  · refine h.2.imp_of_mem ?_
    intro a b ha hb hab i j hi hj
    rw [lastAcc_concat_untouched (hk a ha)] at hi
    rw [lastAcc_concat_untouched (hk b hb)] at hj
    exact hab i j hi hj

/-- Restricting the cache to a sublist preserves the invariant. -/
theorem tracked_sublist {ops : List (LruOp K V)} {st st' : List (K × V)}
    (hs : List.Sublist st' st) (h : Tracked ops st) : Tracked ops st' :=
  ⟨fun q hq => h.1 q (List.Sublist.mem hq hs), h.2.sublist hs⟩

/-- Removing the touched key and appending it at the most-recently-used end
re-establishes the invariant for the extended log. -/
theorem tracked_insert {ops : List (LruOp K V)} {st : List (K × V)}
    (o : LruOp K V) (v : V) (h : Tracked ops st) :
    Tracked (ops ++ [o]) (eraseKeyL (opKey o) st ++ [(opKey o, v)]) := by
  constructor
  · intro q hq
    rcases List.mem_append.1 hq with hq | hq
    · rw [lastAcc_concat_untouched (eraseKeyL_no_key _ st q hq)]
      exact h.1 q (List.Sublist.mem hq (eraseKeyL_sublist _ st))
    · simp only [List.mem_singleton] at hq
      subst hq
      rw [lastAcc_concat_touched]
      rfl
  · rw [List.pairwise_append]
    refine ⟨?_, by simp, ?_⟩
    · have hsub := (h.2.sublist (eraseKeyL_sublist (opKey o) st))
      refine hsub.imp_of_mem ?_
      intro a b ha hb hab i j hi hj
      rw [lastAcc_concat_untouched (eraseKeyL_no_key _ st a ha)] at hi
      rw [lastAcc_concat_untouched (eraseKeyL_no_key _ st b hb)] at hj
      exact hab i j hi hj
    · intro a ha b hb
      simp only [List.mem_singleton] at hb
      subst hb
      intro i j hi hj
      rw [lastAcc_concat_untouched (eraseKeyL_no_key _ st a ha)] at hi
      rw [lastAcc_concat_touched] at hj
      cases hj
      exact lastAcc_lt_length hi

/-- The recency invariant holds after any operation sequence run from the
empty cache. -/
theorem tracked_runOps (max : Nat) (ops : List (LruOp K V)) :
    Tracked ops (runOps max ops) := by
  induction ops using List.reverseRecOn with
  | nil => exact ⟨by simp [runOps], by simp [runOps]⟩
  | append_singleton ops o ih =>
    have hrun : runOps max (ops ++ [o]) = applyOp max (runOps max ops) o := by
      simp [runOps, List.foldl_append]
    rw [hrun]
    cases o with
    | get k =>
      show Tracked (ops ++ [LruOp.get k]) (lruGet k (runOps max ops)).2
      rcases hl : lruLookup k (runOps max ops) with _ | v
      · rw [lruGet, hl]
        exact tracked_untouched ih (fun q hq => lruLookup_eq_none_iff.1 hl q hq)
      · rw [lruGet, hl]
        exact tracked_insert (LruOp.get k) v ih
    | set k v =>
      show Tracked (ops ++ [LruOp.set k v]) (lruSet max k v (runOps max ops))
      rw [lruSet]
      exact tracked_sublist (evictLoop_sublist _ _) (tracked_insert (LruOp.set k v) v ih)

/-- Applying any operation to a state within capacity stays within capacity. -/
theorem applyOp_length {max : Nat} {st : List (K × V)} (h : st.length ≤ max)
    (o : LruOp K V) : (applyOp max st o).length ≤ max := by
  cases o with
  | get k =>
    show (lruGet k st).2.length ≤ max
    rcases hl : lruLookup k st with _ | v
    · rw [lruGet, hl]; exact h
    · rw [lruGet, hl]
      simp only [List.length_append, List.length_singleton]
      have := eraseKeyL_length_lt hl
      omega
  | set k v =>
    show (lruSet max k v st).length ≤ max
    exact evictLoop_length_le _ _

/-- Any operation sequence from the empty cache stays within capacity. -/
theorem runOps_length_le (max : Nat) (ops : List (LruOp K V)) :
    (runOps max ops).length ≤ max := by
  induction ops using List.reverseRecOn with
  | nil => simp [runOps]
  | append_singleton ops o ih =>
    have hrun : runOps max (ops ++ [o]) = applyOp max (runOps max ops) o := by
      simp [runOps, List.foldl_append]
    rw [hrun]
    exact applyOp_length ih o

end LruInvariant

/-! ### Claim C1 -/

/-- C1: for every capacity `C > 0` and every sequence of get/set operations
on the bounded attribution cache run from empty, the cache never holds more
than `C` entries, and when a `set` on a new key overflows capacity the single
entry removed is the least recently accessed one (both `get` and `set` count
as accesses: the removed entry is the list head, every other entry plus the
new one is retained, and the head's last access index is minimal). -/
theorem c1_lru_capacity_and_eviction {K V : Type} [DecidableEq K]
    (C : Nat) (hC : 0 < C) (ops : List (LruOp K V)) :
    (runOps C ops).length ≤ C ∧
    (∀ k v, (∀ q ∈ runOps C ops, q.1 ≠ k) → (runOps C ops).length = C →
      ∃ m rest, runOps C ops = m :: rest ∧
        lruSet C k v (runOps C ops) = rest ++ [(k, v)] ∧
        ∀ q ∈ runOps C ops, ∀ i j, lastAcc ops m.1 = some i →
          lastAcc ops q.1 = some j → i ≤ j) := by
  refine ⟨runOps_length_le C ops, ?_⟩
  intro k v hnew hfull
  rcases hst : runOps C ops with _ | ⟨m, rest⟩
  · rw [hst] at hfull
    simp only [List.length_nil] at hfull
    omega
  · rw [hst] at hnew hfull
    refine ⟨m, rest, rfl, ?_, ?_⟩
    · rw [lruSet, eraseKeyL_eq_self hnew, evictLoop_eq_drop]
      have hlen : ((m :: rest) ++ [(k, v)]).length - C = 1 := by
        simp only [List.length_append, List.length_cons, List.length_nil]
        simp only [List.length_cons] at hfull
        omega
      rw [hlen, List.cons_append, List.drop_succ_cons, List.drop_zero]
    · have htr := tracked_runOps C ops
      rw [hst] at htr
      have hpw := List.pairwise_cons.1 htr.2
      intro q hq i j hi hj
      rcases List.mem_cons.1 hq with rfl | hq
      · rw [hi] at hj
        cases hj
        exact Nat.le_refl _
      · exact Nat.le_of_lt (hpw.1 q hq i j hi hj)

/-- Witness for C1 at a concrete capacity and operation sequence. -/
theorem c1_lru_capacity_and_eviction_witness :
    (runOps 2 ([LruOp.set 1 10, LruOp.set 2 20, LruOp.get 1] : List (LruOp Nat Nat))).length ≤ 2 ∧
    (∃ m rest,
      runOps 2 ([LruOp.set 1 10, LruOp.set 2 20, LruOp.get 1] : List (LruOp Nat Nat)) = m :: rest ∧
      lruSet 2 3 30 (runOps 2 ([LruOp.set 1 10, LruOp.set 2 20, LruOp.get 1] : List (LruOp Nat Nat)))
        = rest ++ [(3, 30)] ∧
      ∀ q ∈ runOps 2 ([LruOp.set 1 10, LruOp.set 2 20, LruOp.get 1] : List (LruOp Nat Nat)),
        ∀ i j, lastAcc [LruOp.set 1 10, LruOp.set 2 20, LruOp.get 1] m.1 = some i →
          lastAcc [LruOp.set 1 10, LruOp.set 2 20, LruOp.get 1] q.1 = some j → i ≤ j) :=
  ⟨(c1_lru_capacity_and_eviction 2 (by decide) _).1,
   (c1_lru_capacity_and_eviction 2 (by decide) _).2 3 30 (by decide) (by decide)⟩

/-! ### Claim C3 -/

/-- C3: the label formatter leaves a summary of length at most 60 unmodified
in the label and for a longer summary shows its first 80 characters followed
by the ellipsis marker; a 60-character summary is untouched and a
61-character summary gains the ellipsis. -/
theorem c3_formatBlameLabel_truncation :
    (∀ (nowMs : Int) (info : BlameInfo) (s : Str), info.summary = some s →
      formatBlameLabel nowMs info =
        jstr "⎇ " ++ info.author.getD (jstr "Unknown author") ++ jstr ", " ++
          (match info.authorTime with
           | some t => relativeFromUnixSeconds t nowMs
           | none => jstr "unknown date") ++ jstr " · " ++
          (if s.length ≤ 60 then s else s.take 80 ++ jstr "…") ++ jstr " ↗") ∧
    formatBlameLabel 0 { commit := [], summary := some (List.replicate 60 'x') } =
      jstr "⎇ Unknown author, unknown date · " ++ List.replicate 60 'x' ++ jstr " ↗" ∧
    formatBlameLabel 0 { commit := [], summary := some (List.replicate 61 'x') } =
      jstr "⎇ Unknown author, unknown date · " ++ List.replicate 61 'x' ++ jstr "…" ++ jstr " ↗" := by
  refine ⟨?_, by decide, ?_⟩
  · intro nowMs info s hs
    rw [formatBlameLabel, hs]
    simp only [Option.getD_some, truncateSummary]
    by_cases h : s.length ≤ 60
    · rw [if_neg (by omega), if_pos h]
    · rw [if_pos (by omega), if_neg h]
  · have h61 : (List.replicate 61 'x').take 80 = List.replicate 61 'x' := by decide
    decide

/-- Witness for C3 at a concrete record. -/
theorem c3_formatBlameLabel_truncation_witness :
    formatBlameLabel 0 { commit := jstr "c", summary := some (jstr "Fix bug") } =
      jstr "⎇ Unknown author, unknown date · Fix bug ↗" := by
  rw [c3_formatBlameLabel_truncation.1 0
    { commit := jstr "c", summary := some (jstr "Fix bug") } (jstr "Fix bug") rfl]
  decide

/-! ### Claim C4 -/

/-- C4 counterexample: an elapsed time of 360 days (31104000 s) is less than
one year, yet the phrasing is "0 year ago", not an "N month(s) ago" bucket:
`months = floor(360/30) = 12` fails the `months < 12` test and the code falls
through to `years = floor(360/365) = 0`. -/
theorem c4_relative_time_counterexample :
    relativeFromUnixSeconds 0 31104000000 = jstr "0 year ago" ∧
    jstr "0 year ago" ≠ jstr "12 months ago" ∧
    (31104000 : Nat) < 365 * 86400 := by
  refine ⟨by decide, by decide, by decide⟩

/-- C4 (amended): the relative-time phrasing buckets the clamped elapsed
seconds `d` as: "just now" for `d < 10`; "N secs ago" for `10 ≤ d < 60`;
"N min(s) ago" with `N = d / 60` for `60 ≤ d < 3600`; "N hour(s) ago" with
`N = d / 3600` for `3600 ≤ d < 86400`; "N day(s) ago" with `N = d / 86400`
for `86400 ≤ d < 30·86400`; "N month(s) ago" with `N = days / 30` only while
`days / 30 < 12` (i.e. for fewer than 360 days, not a full year); and
"N year(s) ago" with `N = days / 365` for 360 days or more, so elapsed times
of 360–364 days render as "0 year ago".  The plural "s" appears exactly when
the count exceeds 1, and the boundary examples 9 s, 10 s, 59 s, 60 s, 3599 s
and 3600 s behave as the claim lists. -/
theorem c4_relative_time_buckets :
    (∀ sec nowMs : Int, relativeFromUnixSeconds sec nowMs =
      relPhrase ((nowMs - sec * 1000).fdiv 1000).toNat) ∧
    (∀ d : Nat,
      (d < 10 → relPhrase d = jstr "just now") ∧
      (10 ≤ d → d < 60 → relPhrase d = natChars d ++ jstr " secs ago") ∧
      (60 ≤ d → d < 3600 → relPhrase d =
        natChars (d / 60) ++ (if d / 60 > 1 then jstr " mins ago" else jstr " min ago")) ∧
      (3600 ≤ d → d < 86400 → relPhrase d =
        natChars (d / 3600) ++ (if d / 3600 > 1 then jstr " hours ago" else jstr " hour ago")) ∧
      (86400 ≤ d → d < 2592000 → relPhrase d =
        natChars (d / 86400) ++ (if d / 86400 > 1 then jstr " days ago" else jstr " day ago")) ∧
      (2592000 ≤ d → d / 86400 / 30 < 12 → relPhrase d =
        natChars (d / 86400 / 30) ++
          (if d / 86400 / 30 > 1 then jstr " months ago" else jstr " month ago")) ∧
      (2592000 ≤ d → ¬ d / 86400 / 30 < 12 → relPhrase d =
        natChars (d / 86400 / 365) ++
          (if d / 86400 / 365 > 1 then jstr " years ago" else jstr " year ago"))) ∧
    relativeFromUnixSeconds 0 9000 = jstr "just now" ∧
    relativeFromUnixSeconds 0 10000 = jstr "10 secs ago" ∧
    relativeFromUnixSeconds 0 59000 = jstr "59 secs ago" ∧
    relativeFromUnixSeconds 0 60000 = jstr "1 min ago" ∧
    relativeFromUnixSeconds 0 3599000 = jstr "59 mins ago" ∧
    relativeFromUnixSeconds 0 3600000 = jstr "1 hour ago" ∧
    relativeFromUnixSeconds 0 31104000000 = jstr "0 year ago" := by
  refine ⟨fun sec nowMs => rfl, ?_,
    by decide, by decide, by decide, by decide, by decide, by decide, by decide⟩
  intro d
  have hmins : d / 60 / 60 = d / 3600 := by
    rw [Nat.div_div_eq_div_mul]
  have hhours : d / 3600 / 24 = d / 86400 := by
    rw [Nat.div_div_eq_div_mul]
  refine ⟨?_, ?_, ?_, ?_, ?_, ?_, ?_⟩
  · intro h
    rw [relPhrase, if_pos h]
  · intro h1 h2
    rw [relPhrase, if_neg (by omega), if_pos h2, pluralS, if_pos (by omega)]
    simp only [List.append_assoc]
    exact congrArg (natChars d ++ ·) (by decide)
  · intro h1 h2
    have hm : d / 60 < 60 := by omega
    rw [relPhrase, if_neg (by omega), if_neg (by omega)]
    simp only
    rw [if_pos hm, pluralS]
    by_cases hp : d / 60 > 1
    · rw [if_pos hp, if_pos hp]
      simp only [List.append_assoc]
      exact congrArg (natChars (d / 60) ++ ·) (by decide)
    · rw [if_neg hp, if_neg hp]
      simp only [List.append_assoc]
      exact congrArg (natChars (d / 60) ++ ·) (by decide)
  · intro h1 h2
    have hm : ¬ d / 60 < 60 := by omega
    have hh : d / 60 / 60 < 24 := by rw [hmins]; omega
    rw [relPhrase, if_neg (by omega), if_neg (by omega)]
    simp only
    rw [if_neg hm, if_pos hh, hmins, pluralS]
    by_cases hp : d / 3600 > 1
    · rw [if_pos hp, if_pos hp]
      simp only [List.append_assoc]
      exact congrArg (natChars (d / 3600) ++ ·) (by decide)
    · rw [if_neg hp, if_neg hp]
      simp only [List.append_assoc]
      exact congrArg (natChars (d / 3600) ++ ·) (by decide)
  · intro h1 h2
    have hm : ¬ d / 60 < 60 := by omega
    have hh : ¬ d / 60 / 60 < 24 := by rw [hmins]; omega
    have hd : d / 60 / 60 / 24 < 30 := by rw [hmins, hhours]; omega
    rw [relPhrase, if_neg (by omega), if_neg (by omega)]
    simp only
    rw [if_neg hm, if_neg hh, hmins, if_pos (by rw [hhours]; omega), hhours, pluralS]
    by_cases hp : d / 86400 > 1
    · rw [if_pos hp, if_pos hp]
      simp only [List.append_assoc]
      exact congrArg (natChars (d / 86400) ++ ·) (by decide)
    · rw [if_neg hp, if_neg hp]
      simp only [List.append_assoc]
      exact congrArg (natChars (d / 86400) ++ ·) (by decide)
  · intro h1 h2
    have hm : ¬ d / 60 < 60 := by omega
    have hh : ¬ d / 60 / 60 < 24 := by rw [hmins]; omega
    have hd : ¬ d / 60 / 60 / 24 < 30 := by rw [hmins, hhours]; omega
    rw [relPhrase, if_neg (by omega), if_neg (by omega)]
    simp only
    rw [if_neg hm, if_neg hh, hmins, if_neg (by rw [hhours]; omega), hhours,
      if_pos h2, pluralS]
    by_cases hp : d / 86400 / 30 > 1
    · rw [if_pos hp, if_pos hp]
      simp only [List.append_assoc]
      exact congrArg (natChars (d / 86400 / 30) ++ ·) (by decide)
    · rw [if_neg hp, if_neg hp]
      simp only [List.append_assoc]
      exact congrArg (natChars (d / 86400 / 30) ++ ·) (by decide)
  · intro h1 h2
    have hm : ¬ d / 60 < 60 := by omega
    have hh : ¬ d / 60 / 60 < 24 := by rw [hmins]; omega
    rw [relPhrase, if_neg (by omega), if_neg (by omega)]
    simp only
    rw [if_neg hm, if_neg hh, hmins, if_neg (by rw [hhours]; omega), hhours,
      if_neg h2, pluralS]
    by_cases hp : d / 86400 / 365 > 1
    · rw [if_pos hp, if_pos hp]
      simp only [List.append_assoc]
      exact congrArg (natChars (d / 86400 / 365) ++ ·) (by decide)
    · rw [if_neg hp, if_neg hp]
      simp only [List.append_assoc]
      exact congrArg (natChars (d / 86400 / 365) ++ ·) (by decide)

/-- Witness for C4 at a concrete elapsed time in the months bucket. -/
theorem c4_relative_time_buckets_witness :
    relPhrase 5184000 = natChars (5184000 / 86400 / 30) ++ jstr " months ago" := by
  rw [(c4_relative_time_buckets.2.1 5184000).2.2.2.2.2.1 (by decide) (by decide)]
  decide

/-! ### Supporting lemmas: `.git` stripping and URL prefixes -/

theorem stripDotGit_append {p rest : Str} (h : 4 ≤ rest.length) :
    stripDotGit (p ++ rest) = p ++ stripDotGit rest := by
  have hlen : 4 ≤ rest.reverse.length := by simpa using h
  rw [stripDotGit, stripDotGit, List.reverse_append,
    List.take_append_of_le_length hlen]
  split
  · rw [List.drop_append_of_le_length hlen, List.reverse_append, List.reverse_reverse]
  · rfl

/-- Appending fewer than four characters to a string ending in `://` cannot
produce a string ending in `.git`. -/
theorem take4_ne_tig_short {pre rest : Str} (hpre : pre.reverse.take 3 = jstr "//:")
    (hrest : rest.length < 4) : (pre ++ rest).reverse.take 4 ≠ jstr "tig." := by
  intro hc
  rw [List.reverse_append] at hc
  rcases hx : pre.reverse with _ | ⟨x, xs⟩
  · rw [hx] at hpre
    exact absurd hpre (by decide)
  · rw [hx] at hpre hc
    have hx' : x = '/' := by
      rcases xs with _ | ⟨y, ys⟩
      · simp [jstr] at hpre
      · simp [jstr] at hpre
        exact hpre.1
    subst hx'
    rcases rest with _ | ⟨a, _ | ⟨b, _ | ⟨c, _ | ⟨d, t⟩⟩⟩⟩
    · simp [jstr] at hc
    · simp [jstr] at hc
    · simp [jstr] at hc
    · simp [jstr] at hc
    · simp only [List.length_cons] at hrest
      omega

/-! ### Claim C10 -/

/-- C10: a (trimmed) remote URL beginning with `http://` is accepted by the
normalizer and returned unchanged apart from stripping a trailing `.git`; it
is neither rejected nor upgraded to `https://` — the result still begins
with `http://`. -/
theorem c10_http_passthrough (s rest : Str) (htrim : trimJ s = s)
    (hs : s = jstr "http://" ++ rest) :
    normaliseRemoteToHttps s = some (stripDotGit s) ∧
    ∃ r2, stripDotGit s = jstr "http://" ++ r2 := by
  have hpre3 : (jstr "http://").reverse.take 3 = jstr "//:" := by decide
  have hsd : ∃ r2, stripDotGit s = jstr "http://" ++ r2 := by
    subst hs
    by_cases hlen : rest.length < 4
    · exact ⟨rest, by rw [stripDotGit, if_neg (take4_ne_tig_short hpre3 hlen)]⟩
    · exact ⟨stripDotGit rest, stripDotGit_append (by omega)⟩
  obtain ⟨r2, hr2⟩ := hsd
  refine ⟨?_, ⟨r2, hr2⟩⟩
  simp only [normaliseRemoteToHttps, htrim, hr2, startsWith_append, Bool.true_or, ite_true]

/-- Witness for C10 at a concrete `http://` remote with a `.git` suffix. -/
theorem c10_http_passthrough_witness :
    normaliseRemoteToHttps (jstr "http://example.com/a.git") =
      some (jstr "http://example.com/a") := by
  rw [(c10_http_passthrough (jstr "http://example.com/a.git")
    (jstr "example.com/a.git") (by decide) (by decide)).1]
  decide

/-- The SCP-like pattern matches exactly `git@<host>:<rest>` with a non-empty
colon-free host and a non-empty line-terminator-free remainder. -/
theorem scpMatch_exact (host rest : Str) (hcolon : ':' ∉ host) (hhost : host ≠ [])
    (hrest : rest ≠ []) (hnl : ∀ c ∈ rest, isLineTerm c = false) :
    scpMatch (jstr "git@" ++ (host ++ ':' :: rest)) = some (host, rest) := by
  have hsw : startsWith (jstr "git@") (jstr "git@" ++ (host ++ ':' :: rest)) = true :=
    startsWith_append _ _
  have hdrop : (jstr "git@" ++ (host ++ ':' :: rest)).drop 4 = host ++ ':' :: rest :=
    List.drop_left' (by decide)
  have htw : (host ++ ':' :: rest).takeWhile (fun c => decide (c ≠ ':')) = host :=
    takeWhile_append_cons (fun x hx => by simp; exact fun hc => hcolon (hc ▸ hx)) (by simp)
  have hdrop2 : (host ++ ':' :: rest).drop (host.length + 1) = rest := by
    have : host ++ ':' :: rest = (host ++ [':']) ++ rest := by simp
    rw [this]
    exact List.drop_left' (by simp)
  rw [scpMatch, if_pos hsw]
  simp only [hdrop, htw, hdrop2]
  rw [if_pos]
  refine ⟨hhost, ?_, hrest, hnl⟩
  simp only [List.length_append, List.length_cons]
  omega

/-- The `ssh://` pattern matches exactly `ssh://git@<host>/<rest>` with a
non-empty slash-free host and a non-empty line-terminator-free remainder. -/
theorem sshMatch_exact (host rest : Str) (hslash : '/' ∉ host) (hhost : host ≠ [])
    (hrest : rest ≠ []) (hnl : ∀ c ∈ rest, isLineTerm c = false) :
    sshMatch (jstr "ssh://git@" ++ (host ++ '/' :: rest)) = some (host, rest) := by
  have hsw : startsWith (jstr "ssh://git@") (jstr "ssh://git@" ++ (host ++ '/' :: rest)) = true :=
    startsWith_append _ _
  have hdrop : (jstr "ssh://git@" ++ (host ++ '/' :: rest)).drop 10 = host ++ '/' :: rest :=
    List.drop_left' (by decide)
  have htw : (host ++ '/' :: rest).takeWhile (fun c => decide (c ≠ '/')) = host :=
    takeWhile_append_cons (fun x hx => by simp; exact fun hc => hslash (hc ▸ hx)) (by simp)
  have hdrop2 : (host ++ '/' :: rest).drop (host.length + 1) = rest := by
    have : host ++ '/' :: rest = (host ++ ['/']) ++ rest := by simp
    rw [this]
    exact List.drop_left' (by simp)
  rw [sshMatch, if_pos hsw]
  simp only [hdrop, htw, hdrop2]
  rw [if_pos]
  refine ⟨hhost, ?_, hrest, hnl⟩
  simp only [List.length_append, List.length_cons]
  omega

/-! ### Claim C6 -/

/-- C6 counterexample: the normalizer does not strip a trailing slash from an
HTTPS remote — `https://gitlab.com/org/repo/` is returned with its slash,
while the claim demands `https://gitlab.com/org/repo`. -/
theorem c6_normalise_counterexample :
    normaliseRemoteToHttps (jstr "https://gitlab.com/org/repo/") =
      some (jstr "https://gitlab.com/org/repo/") ∧
    jstr "https://gitlab.com/org/repo/" ≠ jstr "https://gitlab.com/org/repo" :=
  ⟨by decide, by decide⟩

/-- C6 (amended): a trimmed `https://` remote is passed through with only a
trailing `.git` suffix stripped (trailing slashes are preserved; the claimed
slash-stripping actually happens later, in the permalink builder); a trimmed
SCP-like `git@host:org/repo` remote and an `ssh://git@host/org/repo` remote
are rewritten to `https://host/org/repo`; `git@github.com:org/repo.git` maps
to `https://github.com/org/repo`, `https://gitlab.com/org/repo.git` maps to
`https://gitlab.com/org/repo`, and the unrecognized `ftp://example.com/x`
yields `none` rather than a best-effort URL. -/
theorem c6_normalise_amended :
    (∀ s rest : Str, trimJ s = s → s = jstr "https://" ++ rest →
      normaliseRemoteToHttps s = some (stripDotGit s) ∧
      ∃ r2, stripDotGit s = jstr "https://" ++ r2) ∧
    (∀ s host rest : Str, trimJ s = s → s = jstr "git@" ++ (host ++ ':' :: rest) →
      stripDotGit s = s → ':' ∉ host → host ≠ [] → rest ≠ [] →
      (∀ c ∈ rest, isLineTerm c = false) →
      normaliseRemoteToHttps s = some (jstr "https://" ++ host ++ jstr "/" ++ rest)) ∧
    (∀ s host rest : Str, trimJ s = s → s = jstr "ssh://git@" ++ (host ++ '/' :: rest) →
      stripDotGit s = s → '/' ∉ host → host ≠ [] → rest ≠ [] →
      (∀ c ∈ rest, isLineTerm c = false) →
      normaliseRemoteToHttps s = some (jstr "https://" ++ host ++ jstr "/" ++ rest)) ∧
    normaliseRemoteToHttps (jstr "git@github.com:org/repo.git") =
      some (jstr "https://github.com/org/repo") ∧
    normaliseRemoteToHttps (jstr "https://gitlab.com/org/repo.git") =
      some (jstr "https://gitlab.com/org/repo") ∧
    normaliseRemoteToHttps (jstr "git@github.com:org/repo/") =
      some (jstr "https://github.com/org/repo/") ∧
    normaliseRemoteToHttps (jstr "ftp://example.com/x") = none := by
  refine ⟨?_, ?_, ?_, by decide, by decide, by decide, by decide⟩
  · intro s rest htrim hs
    have hpre3 : (jstr "https://").reverse.take 3 = jstr "//:" := by decide
    have hsd : ∃ r2, stripDotGit s = jstr "https://" ++ r2 := by
      subst hs
      by_cases hlen : rest.length < 4
      · exact ⟨rest, by rw [stripDotGit, if_neg (take4_ne_tig_short hpre3 hlen)]⟩
      · exact ⟨stripDotGit rest, stripDotGit_append (by omega)⟩
    obtain ⟨r2, hr2⟩ := hsd
    refine ⟨?_, ⟨r2, hr2⟩⟩
    have hhttps : startsWith (jstr "https://") (stripDotGit s) = true := by
      rw [hr2]; exact startsWith_append _ _
    simp only [normaliseRemoteToHttps, htrim, hhttps, Bool.or_true, ite_true]
  · intro s host rest htrim hs hgit hcolon hhost hrest hnl
    have hmatch : scpMatch s = some (host, rest) := by
      rw [hs]; exact scpMatch_exact host rest hcolon hhost hrest hnl
    have hhttp : startsWith (jstr "http://") s = false := by
      rw [hs]; simp [jstr, startsWith]
    have hhttps : startsWith (jstr "https://") s = false := by
      rw [hs]; simp [jstr, startsWith]
    simp only [normaliseRemoteToHttps, htrim, hgit, hhttp, hhttps, Bool.or_false,
      ite_false, hmatch]
    simp
  · intro s host rest htrim hs hgit hslash hhost hrest hnl
    have hmatch : sshMatch s = some (host, rest) := by
      rw [hs]; exact sshMatch_exact host rest hslash hhost hrest hnl
    have hscp : scpMatch s = none := by
      rw [scpMatch, if_neg]
      rw [hs]; simp [jstr, startsWith]
    have hhttp : startsWith (jstr "http://") s = false := by
      rw [hs]; simp [jstr, startsWith]
    have hhttps : startsWith (jstr "https://") s = false := by
      rw [hs]; simp [jstr, startsWith]
    simp only [normaliseRemoteToHttps, htrim, hgit, hhttp, hhttps, Bool.or_false,
      ite_false, hscp, hmatch]
    simp

/-- Witness for C6 at a concrete SCP-like remote without `.git`. -/
theorem c6_normalise_amended_witness :
    normaliseRemoteToHttps (jstr "git@example.org:team/proj") =
      some (jstr "https://example.org/team/proj") := by
  rw [c6_normalise_amended.2.1 (jstr "git@example.org:team/proj")
    (jstr "example.org") (jstr "team/proj") (by decide) (by decide) (by decide)
    (by decide) (by decide) (by decide) (by decide)]
  decide

/-! ### Claim C7 -/

/-- C7 counterexample: for a base URL with a trailing slash the permalink is
not the plain concatenation `base ++ "/blob/" ++ …` — the builder first
strips one trailing slash from the base. -/
theorem c7_buildFileUrl_counterexample :
    buildFileUrl (jstr "https://github.com/org/repo/") (jstr "src/a b.ts")
        (jstr "abc123") 42 =
      jstr "https://github.com/org/repo/blob/abc123/src/a%20b.ts#L42" ∧
    jstr "https://github.com/org/repo/blob/abc123/src/a%20b.ts#L42" ≠
      jstr "https://github.com/org/repo/" ++ jstr "/blob/" ++
        encodeURIComponent (jstr "abc123") ++ jstr "/" ++
        joinChar '/' ((splitOnChar '/' (jstr "src/a b.ts")).map encodeURIComponent) ++
        jstr "#L" ++ natChars 42 :=
  ⟨by decide, by decide⟩

/-- C7 (amended): the permalink is the concatenation of the base URL *with a
single trailing slash removed*, `/blob/`, the commit percent-encoded as a
whole, `/`, the repository-relative path with each `/`-separated segment
percent-encoded independently (separators preserved), and `#L` followed by
the one-based line number; in particular the claim's concrete example (whose
base has no trailing slash) produces
`https://github.com/org/repo/blob/abc123/src/a%20b.ts#L42`. -/
theorem c7_buildFileUrl_amended :
    (∀ (base path commit : Str) (line : Nat),
      buildFileUrl base path commit line =
        stripTrailingSlash base ++ jstr "/blob/" ++ encodeURIComponent commit ++
          jstr "/" ++
          joinChar '/' ((splitOnChar '/' path).map encodeURIComponent) ++
          jstr "#L" ++ natChars line) ∧
    buildFileUrl (jstr "https://github.com/org/repo") (jstr "src/a b.ts")
        (jstr "abc123") 42 =
      jstr "https://github.com/org/repo/blob/abc123/src/a%20b.ts#L42" := by
  refine ⟨?_, by decide⟩
  intro base path commit line
  rw [buildFileUrl]
  rw [show pathSep = '/' from rfl, joinChar_splitOnChar]

/-- Witness for C7: the general equation applied at a base with a trailing
slash, evaluated. -/
theorem c7_buildFileUrl_amended_witness :
    buildFileUrl (jstr "https://h/r/") (jstr "a b/c") (jstr "d e") 7 =
      jstr "https://h/r/blob/d%20e/a%20b/c#L7" := by
  rw [c7_buildFileUrl_amended.1 (jstr "https://h/r/") (jstr "a b/c") (jstr "d e") 7]
  decide

/-! ### Claim C9 -/

/-- C9: on a valid follow-up trigger (the registered command, a non-empty
URI that resolves to a file path, a non-zero line), every failure produces
exactly one warning from the fixed set of four reasons, checked in the
order: not in a repository, no remote found, no attribution for that line,
unsupported remote URL (with the raw URL included); on success no warning is
shown and a request to open the built permalink externally is issued. -/
theorem c9_exec_command_outcomes (uri fp : Str) (line : Nat)
    (resolvePath : Str → Option Str) (ck : Str → Option CkRes)
    (remote : Str → Option Str) (blameRes : Str → Nat → Option BlameInfo)
    (hu : uri ≠ []) (hl : line ≠ 0) (hr : resolvePath uri = some fp) :
    (ck fp = none →
      onExecuteCommand CMD_OPEN (some (uri, line)) resolvePath ck remote blameRes =
        .warn (jstr "Not in a git repo (or git not available).")) ∧
    (∀ ckr, ck fp = some ckr → remote ckr.root = none →
      onExecuteCommand CMD_OPEN (some (uri, line)) resolvePath ck remote blameRes =
        .warn (jstr "No 'origin' remote found.")) ∧
    (∀ ckr rem, ck fp = some ckr → remote ckr.root = some rem →
      blameRes fp line = none →
      onExecuteCommand CMD_OPEN (some (uri, line)) resolvePath ck remote blameRes =
        .warn (jstr "No blame info for that line.")) ∧
    (∀ ckr rem inf, ck fp = some ckr → remote ckr.root = some rem →
      blameRes fp line = some inf → normaliseRemoteToHttps rem = none →
      onExecuteCommand CMD_OPEN (some (uri, line)) resolvePath ck remote blameRes =
        .warn (jstr "Unsupported remote URL: " ++ rem)) ∧
    (∀ ckr rem inf url, ck fp = some ckr → remote ckr.root = some rem →
      blameRes fp line = some inf → normaliseRemoteToHttps rem = some url →
      onExecuteCommand CMD_OPEN (some (uri, line)) resolvePath ck remote blameRes =
        .openExternal (buildFileUrl url ckr.rel inf.commit line)) ∧
    ((∃ m, onExecuteCommand CMD_OPEN (some (uri, line)) resolvePath ck remote blameRes =
        .warn m ∧
        (m = jstr "Not in a git repo (or git not available)." ∨
         m = jstr "No 'origin' remote found." ∨
         m = jstr "No blame info for that line." ∨
         ∃ rem, m = jstr "Unsupported remote URL: " ++ rem)) ∨
      (∃ u, onExecuteCommand CMD_OPEN (some (uri, line)) resolvePath ck remote blameRes =
        .openExternal u)) := by
  have hbase : ∀ out : ExecOutcome,
      (match ck fp with
       | none => ExecOutcome.warn (jstr "Not in a git repo (or git not available).")
       | some ckr =>
         match remote ckr.root, blameRes fp line with
         | none, _ => ExecOutcome.warn (jstr "No 'origin' remote found.")
         | some _, none => ExecOutcome.warn (jstr "No blame info for that line.")
         | some rem, some inf =>
           match normaliseRemoteToHttps rem with
           | none => ExecOutcome.warn (jstr "Unsupported remote URL: " ++ rem)
           | some remoteHttps =>
             ExecOutcome.openExternal (buildFileUrl remoteHttps ckr.rel inf.commit line)) = out →
      onExecuteCommand CMD_OPEN (some (uri, line)) resolvePath ck remote blameRes = out := by
    intro out hout
    rw [onExecuteCommand, if_neg (by simp), if_neg (by simp [hu, hl]), hr]
    exact hout
  refine ⟨?_, ?_, ?_, ?_, ?_, ?_⟩
  · intro h
    exact hbase _ (by rw [h])
  · intro ckr h1 h2
    exact hbase _ (by rw [h1]; simp only; rw [h2])
  · intro ckr rem h1 h2 h3
    exact hbase _ (by rw [h1]; simp only; rw [h2, h3])
  · intro ckr rem inf h1 h2 h3 h4
    exact hbase _ (by rw [h1]; simp only; rw [h2, h3]; simp only; rw [h4])
  · intro ckr rem inf url h1 h2 h3 h4
    exact hbase _ (by rw [h1]; simp only; rw [h2, h3]; simp only; rw [h4])
  · rcases h1 : ck fp with _ | ckr
    · exact Or.inl ⟨_, hbase _ (by rw [h1]), Or.inl rfl⟩
    · rcases h2 : remote ckr.root with _ | rem
      · exact Or.inl ⟨_, hbase _ (by rw [h1]; simp only; rw [h2]), Or.inr (Or.inl rfl)⟩
      · rcases h3 : blameRes fp line with _ | inf
        · exact Or.inl ⟨_, hbase _ (by rw [h1]; simp only; rw [h2, h3]),
            Or.inr (Or.inr (Or.inl rfl))⟩
        · rcases h4 : normaliseRemoteToHttps rem with _ | url
          · refine Or.inl ⟨_, hbase _ (by rw [h1]; simp only; rw [h2, h3]; simp only; rw [h4]),
              Or.inr (Or.inr (Or.inr ⟨rem, rfl⟩))⟩
          · exact Or.inr ⟨_, hbase _ (by rw [h1]; simp only; rw [h2, h3]; simp only; rw [h4])⟩

/-- Witness for C9: with all oracles failing, the first warning is shown. -/
theorem c9_exec_command_outcomes_witness :
    onExecuteCommand CMD_OPEN (some (jstr "file:///x", 3))
      (fun _ => some (jstr "/x")) (fun _ => none) (fun _ => none) (fun _ _ => none) =
      .warn (jstr "Not in a git repo (or git not available).") :=
  (c9_exec_command_outcomes (jstr "file:///x") (jstr "/x") 3
    (fun _ => some (jstr "/x")) (fun _ => none) (fun _ => none) (fun _ _ => none)
    (by decide) (by decide) rfl).1 rfl

/-! ### Supporting lemmas: the parser loop -/

theorem not_startsWith_author_of_time (z : Str) :
    startsWith (jstr "author ") (jstr "author-time " ++ z) = false := by
  simp [jstr, startsWith]

theorem not_startsWith_author_of_summary (z : Str) :
    startsWith (jstr "author ") (jstr "summary " ++ z) = false := by
  simp [jstr, startsWith]

theorem not_startsWith_time_of_summary (z : Str) :
    startsWith (jstr "author-time ") (jstr "summary " ++ z) = false := by
  simp [jstr, startsWith]

/-- `parseStep` never changes the commit field. -/
theorem parseStep_commit (info : BlameInfo) (l : Str) :
    (parseStep info l).commit = info.commit := by
  unfold parseStep
  split
  · rfl
  · split
    · split <;> rfl
    · split <;> rfl

/-- A line that does not start with `author ` leaves the author unchanged. -/
theorem parseStep_author_skip {l : Str} (info : BlameInfo)
    (h : startsWith (jstr "author ") l = false) :
    (parseStep info l).author = info.author := by
  unfold parseStep
  rw [h]
  simp only [Bool.false_eq_true, ite_false]
  split
  · split <;> rfl
  · split <;> rfl

/-- A line that does not start with `author-time ` leaves the timestamp
unchanged (note a line starting with `author ` never reaches the
`author-time` branch). -/
theorem parseStep_time_skip {l : Str} (info : BlameInfo)
    (h : startsWith (jstr "author-time ") l = false) :
    (parseStep info l).authorTime = info.authorTime := by
  unfold parseStep
  split
  · rfl
  · rw [h]
    simp only [Bool.false_eq_true, ite_false]
    split <;> rfl

/-- A line that does not start with `summary ` leaves the summary
unchanged. -/
theorem parseStep_summary_skip {l : Str} (info : BlameInfo)
    (h : startsWith (jstr "summary ") l = false) :
    (parseStep info l).summary = info.summary := by
  unfold parseStep
  split
  · rfl
  · split
    · split <;> rfl
    · rw [h]
      simp only [Bool.false_eq_true, ite_false]

/-- An empty line changes nothing. -/
theorem parseStep_nil (info : BlameInfo) : parseStep info [] = info := by
  unfold parseStep
  rw [show startsWith (jstr "author ") [] = false from rfl,
    show startsWith (jstr "author-time ") [] = false from rfl,
    show startsWith (jstr "summary ") [] = false from rfl]
  simp

/-- An `author X` line sets the author to the trimmed `X`. -/
theorem parseStep_author_line (info : BlameInfo) (X : Str) :
    parseStep info (jstr "author " ++ X) = { info with author := some (trimJ X) } := by
  unfold parseStep
  rw [startsWith_append, if_pos rfl, List.drop_left' (by decide)]

/-- An `author-time T` line (decimal `T`) sets the timestamp to `T`. -/
theorem parseStep_time_line (info : BlameInfo) (T : Nat) :
    parseStep info (jstr "author-time " ++ natChars T) =
      { info with authorTime := some (T : Int) } := by
  unfold parseStep
  rw [not_startsWith_author_of_time, startsWith_append]
  simp only [Bool.false_eq_true, ite_false, ite_true]
  rw [List.drop_left' (by decide),
    trimJ_of_no_ws (fun c hc => isDigit_not_ws (natChars_all_digit T c hc)),
    jsNumInt_natChars]

/-- A `summary S` line sets the summary to the trimmed `S`. -/
theorem parseStep_summary_line (info : BlameInfo) (S : Str) :
    parseStep info (jstr "summary " ++ S) = { info with summary := some (trimJ S) } := by
  unfold parseStep
  rw [not_startsWith_author_of_summary, not_startsWith_time_of_summary, startsWith_append]
  simp only [Bool.false_eq_true, ite_false, ite_true]
  rw [List.drop_left' (by decide)]

theorem author_line_ne_nil (X : Str) : jstr "author " ++ X ≠ [] := by simp [jstr]

theorem time_line_ne_nil (T : Nat) : jstr "author-time " ++ natChars T ≠ [] := by simp [jstr]

theorem summary_line_ne_nil (S : Str) : jstr "summary " ++ S ≠ [] := by simp [jstr]

theorem author_line_ne_time_line (X S2 : Str) :
    jstr "author " ++ X ≠ jstr "author-time " ++ S2 := by
  simp [jstr]

theorem author_line_ne_summary_line (X S2 : Str) :
    jstr "author " ++ X ≠ jstr "summary " ++ S2 := by
  simp [jstr]

theorem time_line_ne_summary_line (X S2 : Str) :
    jstr "author-time " ++ X ≠ jstr "summary " ++ S2 := by
  simp [jstr]

/-- The fold never changes the commit field. -/
theorem foldl_parseStep_commit (lines : List Str) :
    ∀ info : BlameInfo, (lines.foldl parseStep info).commit = info.commit := by
  induction lines with
  | nil => intro info; rfl
  | cons l rest ih =>
    intro info
    rw [List.foldl_cons, ih, parseStep_commit]

/-- On lines drawn from the four allowed shapes, the folded author is `X`
as soon as the `author X` line occurs. -/
theorem foldl_parseStep_author (X S : Str) (T : Nat) (hX : trimJ X = X) :
    ∀ (lines : List Str) (info : BlameInfo),
      (∀ l ∈ lines, l = [] ∨ l = jstr "author " ++ X ∨
        l = jstr "author-time " ++ natChars T ∨ l = jstr "summary " ++ S) →
      (lines.foldl parseStep info).author =
        if (jstr "author " ++ X) ∈ lines then some X else info.author := by
  intro lines
  induction lines with
  | nil => intro info _; simp
  | cons l rest ih =>
    intro info hall
    have hrest : ∀ l' ∈ rest, l' = [] ∨ l' = jstr "author " ++ X ∨
        l' = jstr "author-time " ++ natChars T ∨ l' = jstr "summary " ++ S :=
      fun l' hl' => hall l' (List.mem_cons_of_mem _ hl')
    rw [List.foldl_cons, ih _ hrest]
    rcases hall l (List.mem_cons_self _ _) with rfl | rfl | rfl | rfl
    · rw [parseStep_nil]
      by_cases hm : (jstr "author " ++ X) ∈ rest
      · rw [if_pos hm, if_pos (List.mem_cons_of_mem _ hm)]
      · rw [if_neg hm, if_neg (by
          simp only [List.mem_cons]
          rintro (hc | hc)
          · exact author_line_ne_nil X hc
          · exact hm hc)]
    · rw [parseStep_author_line, hX]
      by_cases hm : (jstr "author " ++ X) ∈ rest
      · rw [if_pos hm, if_pos (List.mem_cons_self _ _)]
      · rw [if_neg hm, if_pos (List.mem_cons_self _ _)]
    · rw [parseStep_time_line]
      by_cases hm : (jstr "author " ++ X) ∈ rest
      · rw [if_pos hm, if_pos (List.mem_cons_of_mem _ hm)]
      · rw [if_neg hm, if_neg (by
          simp only [List.mem_cons]
          rintro (hc | hc)
          · exact author_line_ne_time_line X (natChars T) hc
          · exact hm hc)]
    · rw [parseStep_summary_line]
      by_cases hm : (jstr "author " ++ X) ∈ rest
      · rw [if_pos hm, if_pos (List.mem_cons_of_mem _ hm)]
      · rw [if_neg hm, if_neg (by
          simp only [List.mem_cons]
          rintro (hc | hc)
          · exact author_line_ne_summary_line X S hc
          · exact hm hc)]

/-- On lines drawn from the four allowed shapes, the folded timestamp is `T`
as soon as the `author-time T` line occurs. -/
theorem foldl_parseStep_time (X S : Str) (T : Nat) :
    ∀ (lines : List Str) (info : BlameInfo),
      (∀ l ∈ lines, l = [] ∨ l = jstr "author " ++ X ∨
        l = jstr "author-time " ++ natChars T ∨ l = jstr "summary " ++ S) →
      (lines.foldl parseStep info).authorTime =
        if (jstr "author-time " ++ natChars T) ∈ lines then some (T : Int)
        else info.authorTime := by
  intro lines
  induction lines with
  | nil => intro info _; simp
  | cons l rest ih =>
    intro info hall
    have hrest : ∀ l' ∈ rest, l' = [] ∨ l' = jstr "author " ++ X ∨
        l' = jstr "author-time " ++ natChars T ∨ l' = jstr "summary " ++ S :=
      fun l' hl' => hall l' (List.mem_cons_of_mem _ hl')
    rw [List.foldl_cons, ih _ hrest]
    rcases hall l (List.mem_cons_self _ _) with rfl | rfl | rfl | rfl
    · rw [parseStep_nil]
      by_cases hm : (jstr "author-time " ++ natChars T) ∈ rest
      · rw [if_pos hm, if_pos (List.mem_cons_of_mem _ hm)]
      · rw [if_neg hm, if_neg (by
          simp only [List.mem_cons]
          rintro (hc | hc)
          · exact time_line_ne_nil T hc
          · exact hm hc)]
    · rw [parseStep_author_line]
      by_cases hm : (jstr "author-time " ++ natChars T) ∈ rest
      · rw [if_pos hm, if_pos (List.mem_cons_of_mem _ hm)]
      · rw [if_neg hm, if_neg (by
          simp only [List.mem_cons]
          rintro (hc | hc)
          · exact author_line_ne_time_line X (natChars T) hc.symm
          · exact hm hc)]
    · rw [parseStep_time_line]
      by_cases hm : (jstr "author-time " ++ natChars T) ∈ rest
      · rw [if_pos hm, if_pos (List.mem_cons_self _ _)]
      · rw [if_neg hm, if_pos (List.mem_cons_self _ _)]
    · rw [parseStep_summary_line]
      by_cases hm : (jstr "author-time " ++ natChars T) ∈ rest
      · rw [if_pos hm, if_pos (List.mem_cons_of_mem _ hm)]
      · rw [if_neg hm, if_neg (by
          simp only [List.mem_cons]
          rintro (hc | hc)
          · exact time_line_ne_summary_line (natChars T) S hc
          · exact hm hc)]

/-- On lines drawn from the four allowed shapes, the folded summary is the
trimmed `S` as soon as the `summary S` line occurs. -/
theorem foldl_parseStep_summary (X S : Str) (T : Nat) (hS : trimJ S = S) :
    ∀ (lines : List Str) (info : BlameInfo),
      (∀ l ∈ lines, l = [] ∨ l = jstr "author " ++ X ∨
        l = jstr "author-time " ++ natChars T ∨ l = jstr "summary " ++ S) →
      (lines.foldl parseStep info).summary =
        if (jstr "summary " ++ S) ∈ lines then some S else info.summary := by
  intro lines
  induction lines with
  | nil => intro info _; simp
  | cons l rest ih =>
    intro info hall
    have hrest : ∀ l' ∈ rest, l' = [] ∨ l' = jstr "author " ++ X ∨
        l' = jstr "author-time " ++ natChars T ∨ l' = jstr "summary " ++ S :=
      fun l' hl' => hall l' (List.mem_cons_of_mem _ hl')
    rw [List.foldl_cons, ih _ hrest]
    rcases hall l (List.mem_cons_self _ _) with rfl | rfl | rfl | rfl
    · rw [parseStep_nil]
      by_cases hm : (jstr "summary " ++ S) ∈ rest
      · rw [if_pos hm, if_pos (List.mem_cons_of_mem _ hm)]
      · rw [if_neg hm, if_neg (by
          simp only [List.mem_cons]
          rintro (hc | hc)
          · exact summary_line_ne_nil S hc
          · exact hm hc)]
    · rw [parseStep_author_line]
      by_cases hm : (jstr "summary " ++ S) ∈ rest
      · rw [if_pos hm, if_pos (List.mem_cons_of_mem _ hm)]
      · rw [if_neg hm, if_neg (by
          simp only [List.mem_cons]
          rintro (hc | hc)
          · exact author_line_ne_summary_line X S hc.symm
          · exact hm hc)]
    · rw [parseStep_time_line]
      by_cases hm : (jstr "summary " ++ S) ∈ rest
      · rw [if_pos hm, if_pos (List.mem_cons_of_mem _ hm)]
      · rw [if_neg hm, if_neg (by
          simp only [List.mem_cons]
          rintro (hc | hc)
          · exact time_line_ne_summary_line (natChars T) S hc.symm
          · exact hm hc)]
    · rw [parseStep_summary_line, hS]
      by_cases hm : (jstr "summary " ++ S) ∈ rest
      · rw [if_pos hm, if_pos (List.mem_cons_self _ _)]
      · rw [if_neg hm, if_pos (List.mem_cons_self _ _)]

/-! ### Claim C5 -/

/-- C5: a well-formed single-line blame output — a first line carrying the
commit identifier token, followed (in any order, possibly with blank lines)
by exactly the lines `author X`, `author-time T` (decimal `T`) and
`summary S` — parses to the record with that commit, `author = X`,
`authoredAtSeconds = T` and `summary = S`; and every empty or
whitespace-only input parses to no record. -/
theorem c5_parse_blame_porcelain :
    (∀ (porcelain cline commit : Str) (rest : List Str) (X S : Str) (T : Nat),
      splitOnChar '\n' porcelain = cline :: rest →
      (splitOnChar ' ' (trimJ cline)).headD [] = commit →
      commit ≠ [] →
      startsWith (jstr "author ") cline = false →
      startsWith (jstr "author-time ") cline = false →
      startsWith (jstr "summary ") cline = false →
      trimJ X = X → trimJ S = S →
      (∀ l ∈ rest, l = [] ∨ l = jstr "author " ++ X ∨
        l = jstr "author-time " ++ natChars T ∨ l = jstr "summary " ++ S) →
      (jstr "author " ++ X) ∈ rest →
      (jstr "author-time " ++ natChars T) ∈ rest →
      (jstr "summary " ++ S) ∈ rest →
      parseBlamePorcelain porcelain =
        some { commit := commit, author := some X, authorTime := some (T : Int),
               summary := some S }) ∧
    (∀ s : Str, (∀ c ∈ s, isWs c = true) → parseBlamePorcelain s = none) := by
  constructor
  · intro porcelain cline commit rest X S T hsplit hcm hcne hna hnt hns hX hS hall hmA hmT hmS
    have hfne : trimJ cline ≠ [] := by
      intro hnil
      rw [hnil] at hcm
      exact hcne (by rw [← hcm]; rfl)
    have hskip : parseStep { commit := commit } cline = { commit := commit } := by
      unfold parseStep
      rw [hna, hnt, hns]
      simp
    have hcommit : ((cline :: rest).foldl parseStep
        ({ commit := commit } : BlameInfo)).commit = commit := by
      rw [List.foldl_cons, hskip, foldl_parseStep_commit]
    have hauthor : ((cline :: rest).foldl parseStep
        ({ commit := commit } : BlameInfo)).author = some X := by
      rw [List.foldl_cons, hskip, foldl_parseStep_author X S T hX rest _ hall, if_pos hmA]
    have htime : ((cline :: rest).foldl parseStep
        ({ commit := commit } : BlameInfo)).authorTime = some (T : Int) := by
      rw [List.foldl_cons, hskip, foldl_parseStep_time X S T rest _ hall, if_pos hmT]
    have hsummary : ((cline :: rest).foldl parseStep
        ({ commit := commit } : BlameInfo)).summary = some S := by
      rw [List.foldl_cons, hskip, foldl_parseStep_summary X S T hS rest _ hall, if_pos hmS]
    rw [parseBlamePorcelain]
    simp only [hsplit, List.headD_cons]
    rw [if_neg hfne, hcm, if_neg hcne]
    rcases hfold : (cline :: rest).foldl parseStep ({ commit := commit } : BlameInfo)
      with ⟨c, a, t, su⟩
    rw [hfold] at hcommit hauthor htime hsummary
    simp only at hcommit hauthor htime hsummary
    rw [hcommit, hauthor, htime, hsummary]
  · intro s hws
    have hhead : ∀ l ∈ splitOnChar '\n' s, ∀ c ∈ l, isWs c = true :=
      fun l hl c hc => hws c (mem_of_mem_splitOnChar l hl c hc)
    rcases hsp : splitOnChar '\n' s with _ | ⟨h0, t0⟩
    · exact absurd hsp (splitOnChar_ne_nil '\n' s)
    · have h0ws : ∀ c ∈ h0, isWs c = true := by
        intro c hc
        exact hhead h0 (by rw [hsp]; exact List.mem_cons_self _ _) c hc
      rw [parseBlamePorcelain]
      simp only [hsp, List.headD_cons]
      rw [if_pos (trimJ_of_all_ws h0ws)]

/-- Witness for C5 at a concrete well-formed porcelain output and a concrete
whitespace-only input. -/
theorem c5_parse_blame_porcelain_witness :
    parseBlamePorcelain
        (jstr "abc123 1 1 1\nauthor Jane Doe\nauthor-time 1700000000\nsummary Fix bug\n") =
      some { commit := jstr "abc123", author := some (jstr "Jane Doe"),
             authorTime := some (1700000000 : Int), summary := some (jstr "Fix bug") } ∧
    parseBlamePorcelain (jstr " \t \n  ") = none := by
  constructor
  · exact c5_parse_blame_porcelain.1
      (jstr "abc123 1 1 1\nauthor Jane Doe\nauthor-time 1700000000\nsummary Fix bug\n")
      (jstr "abc123 1 1 1") (jstr "abc123")
      [jstr "author Jane Doe", jstr "author-time 1700000000", jstr "summary Fix bug", []]
      (jstr "Jane Doe") (jstr "Fix bug") 1700000000
      (by decide) (by decide) (by decide) (by decide) (by decide) (by decide)
      (by decide) (by decide) (by decide) (by decide) (by decide) (by decide)
  · exact c5_parse_blame_porcelain.2 (jstr " \t \n  ") (by decide)

/-! ### Claim C8 -/

/-- C8: the save handler empties the attribution cache (every key maps to a
miss), and a blame query issued right after a save — even for exactly the
query answered just before the save, with the volatility token unchanged —
always performs a fresh external blame invocation. -/
theorem c8_save_clears_cache :
    (∀ st : LineCache, onDidSave st = [] ∧ ∀ k : Str, lruLookup k (onDidSave st) = none) ∧
    (∀ (env : BlameEnv) (p : Str) (l : Nat) (st : LineCache) (ck : CkRes),
      env.computeKey p = some ck →
      (blameSingleLineCached env p l
        (onDidSave (blameSingleLineCached env p l st).2.1)).2.2 = true) := by
  constructor
  · intro st
    exact ⟨rfl, fun k => rfl⟩
  · intro env p l st ck hck
    show (blameSingleLineCached env p l []).2.2 = true
    rw [blameSingleLineCached, hck]
    rfl

/-- Witness for C8 at a concrete environment and query. -/
theorem c8_save_clears_cache_witness :
    (blameSingleLineCached
      { computeKey := fun q => some { root := q, rel := q, key := jstr "{}" },
        blame := fun _ _ _ => none }
      (jstr "/a.ts") 1
      (onDidSave (blameSingleLineCached
        { computeKey := fun q => some { root := q, rel := q, key := jstr "{}" },
          blame := fun _ _ _ => none }
        (jstr "/a.ts") 1 []).2.1)).2.2 = true :=
  c8_save_clears_cache.2
    { computeKey := fun q => some { root := q, rel := q, key := jstr "{}" },
      blame := fun _ _ _ => none }
    (jstr "/a.ts") 1 [] { root := jstr "/a.ts", rel := jstr "/a.ts", key := jstr "{}" } rfl

/-! ### Supporting lemmas: cache-key injectivity -/

theorem hasCC_of_no_colon : ∀ {s : Str}, (∀ c ∈ s, c ≠ ':') → hasCC s = false := by
  intro s
  induction s with
  | nil => intro _; rfl
  | cons a t ih =>
    intro h
    cases t with
    | nil => rfl
    | cons b t2 =>
      show ((a = ':' && b = ':') || hasCC (b :: t2)) = false
      rw [ih (fun c hc => h c (List.mem_cons_of_mem _ hc))]
      have ha : a ≠ ':' := h a (List.mem_cons_self _ _)
      simp [ha]

theorem hasCC_snoc : ∀ (xs : Str) (c : Char),
    hasCC (xs ++ [c]) =
      (hasCC xs ||
        (decide (c = ':') &&
          match xs.getLast? with
          | some a => decide (a = ':')
          | none => false)) := by
  intro xs
  induction xs with
  | nil => intro c; simp [hasCC]
  | cons a t ih =>
    intro c
    cases t with
    | nil =>
      show hasCC [a, c] = _
      show ((a = ':' && c = ':') || hasCC [c]) = _
      simp [hasCC, Bool.and_comm]
    | cons b t2 =>
      show ((a = ':' && b = ':') || hasCC (b :: t2 ++ [c])) = _
      rw [show (b :: t2 ++ [c] : Str) = (b :: t2) ++ [c] from rfl, ih c]
      show _ = ((a = ':' && b = ':') || hasCC (b :: t2) ||
        (decide (c = ':') && match (a :: b :: t2).getLast? with
          | some a => decide (a = ':')
          | none => false))
      have hgl : (a :: b :: t2).getLast? = (b :: t2).getLast? := by
        rw [List.getLast?_cons_cons]
      rw [hgl, Bool.or_assoc]

theorem hasCC_reverse : ∀ s : Str, hasCC s.reverse = hasCC s := by
  intro s
  induction s with
  | nil => rfl
  | cons a t ih =>
    rw [List.reverse_cons, hasCC_snoc, ih, List.getLast?_reverse]
    cases t with
    | nil => simp [hasCC]
    | cons b t2 =>
      show _ = ((a = ':' && b = ':') || hasCC (b :: t2))
      simp only [List.head?_cons]
      cases hb : decide (b = ':') <;> cases ha : decide (a = ':') <;>
        simp_all [Bool.or_comm]

/-- The natural side conditions — the token contains no `::` and does not
begin with `:` — give the form needed for splitting. -/
theorem hasCC_rev_colon {k : Str} (h1 : hasCC k = false) (h2 : k.head? ≠ some ':') :
    hasCC (k.reverse ++ [':']) = false := by
  rw [hasCC_snoc, hasCC_reverse, h1, List.getLast?_reverse]
  cases hk : k.head? with
  | none => simp
  | some a =>
    have ha : a ≠ ':' := fun hc => h2 (by rw [hk, hc])
    simp [ha]

theorem splitFirstColons_append : ∀ (xs ys : Str), hasCC (xs ++ [':']) = false →
    splitFirstColons (xs ++ ':' :: ':' :: ys) = some (xs, ys) := by
  intro xs
  induction xs with
  | nil =>
    intro ys _
    simp [splitFirstColons]
  | cons x xs' ih =>
    intro ys h
    cases xs' with
    | nil =>
      have hx : x ≠ ':' := by
        intro hc
        subst hc
        exact absurd h (by decide)
      show splitFirstColons (x :: ':' :: ':' :: ys) = some ([x], ys)
      have heq : splitFirstColons (x :: ':' :: ':' :: ys) =
          if x = ':' ∧ (':' : Char) = ':' then some ([], ':' :: ys)
          else (splitFirstColons (':' :: ':' :: ys)).map (fun pr => (x :: pr.1, pr.2)) := rfl
      rw [heq, if_neg (fun hc => hx hc.1)]
      simp [splitFirstColons]
    | cons x2 xs'' =>
      have hsh : hasCC ((x :: x2 :: xs'') ++ [':']) =
          ((x = ':' && x2 = ':') || hasCC ((x2 :: xs'') ++ [':'])) := rfl
      rw [hsh] at h
      have hcond : ¬(x = ':' ∧ x2 = ':') := by
        intro ⟨hc1, hc2⟩
        rw [hc1, hc2] at h
        simp at h
      have hrec : hasCC ((x2 :: xs'') ++ [':']) = false := by
        rcases Bool.or_eq_false_iff.1 h with ⟨_, hr⟩
        exact hr
      have heq : splitFirstColons (x :: x2 :: (xs'' ++ ':' :: ':' :: ys)) =
          if x = ':' ∧ x2 = ':' then some ([], xs'' ++ ':' :: ':' :: ys)
          else (splitFirstColons (x2 :: (xs'' ++ ':' :: ':' :: ys))).map
            (fun pr => (x :: pr.1, pr.2)) := rfl
      show splitFirstColons (x :: x2 :: (xs'' ++ ':' :: ':' :: ys)) = some (x :: x2 :: xs'', ys)
      rw [heq, if_neg hcond,
        show (x2 :: (xs'' ++ ':' :: ':' :: ys) : Str) = (x2 :: xs'') ++ ':' :: ':' :: ys from rfl,
        ih ys hrec]
      rfl

/-- Decoding a composite cache key built from a colon-safe token and decimal
line digits recovers the three components. -/
theorem decodeCacheKey_encode (p k : Str) (l : Nat)
    (hk1 : hasCC k = false) (hk2 : k.head? ≠ some ':') :
    decodeCacheKey (cacheKeyOf p l k) = some (p, natChars l, k) := by
  have hd1 : hasCC ((natChars l).reverse ++ [':']) = false := by
    have hnc : ∀ c ∈ natChars l, c ≠ ':' :=
      fun c hc => isDigit_ne_colon (natChars_all_digit l c hc)
    refine hasCC_rev_colon (hasCC_of_no_colon hnc) ?_
    cases hnl : natChars l with
    | nil => exact absurd hnl (natChars_ne_nil l)
    | cons b t =>
      simp only [List.head?_cons, ne_eq, Option.some.injEq]
      intro hc
      refine hnc b ?_ hc
      rw [hnl]
      exact List.mem_cons_self b t
  have hrev : (cacheKeyOf p l k).reverse =
      k.reverse ++ ':' :: ':' :: ((natChars l).reverse ++ ':' :: ':' :: p.reverse) := by
    show (p ++ jstr "::" ++ natChars l ++ jstr "::" ++ k).reverse = _
    simp [jstr, List.reverse_append]
  rw [decodeCacheKey, hrev,
    splitFirstColons_append _ _ (hasCC_rev_colon hk1 hk2)]
  rw [Option.some_bind]
  rw [splitFirstColons_append _ _ hd1, Option.some_bind]
  simp

/-- The composite cache key is injective on triples whose token is
colon-safe. -/
theorem cacheKeyOf_inj {p1 p2 k1 k2 : Str} {l1 l2 : Nat}
    (h1a : hasCC k1 = false) (h1b : k1.head? ≠ some ':')
    (h2a : hasCC k2 = false) (h2b : k2.head? ≠ some ':')
    (heq : cacheKeyOf p1 l1 k1 = cacheKeyOf p2 l2 k2) :
    p1 = p2 ∧ l1 = l2 ∧ k1 = k2 := by
  have d1 := decodeCacheKey_encode p1 k1 l1 h1a h1b
  have d2 := decodeCacheKey_encode p2 k2 l2 h2a h2b
  rw [heq, d2] at d1
  obtain ⟨hp, hl, hk⟩ : p2 = p1 ∧ natChars l2 = natChars l1 ∧ k2 = k1 := by
    simpa using d1
  exact ⟨hp.symm, (natChars_inj hl).symm, hk.symm⟩

/-! ### Supporting lemmas: the cached blame query -/

theorem blameCached_miss {env : BlameEnv} {p : Str} {l : Nat} {st : LineCache}
    {ck : CkRes} (hck : env.computeKey p = some ck)
    (hl : lruLookup (cacheKeyOf p l ck.key) st = none) :
    blameSingleLineCached env p l st =
      (env.blame ck.root ck.rel l,
       lruSet lineCacheMax (cacheKeyOf p l ck.key) (env.blame ck.root ck.rel l) st,
       true) := by
  rw [blameSingleLineCached, hck]
  simp only [lruGet, hl]

theorem blameCached_hit {env : BlameEnv} {p : Str} {l : Nat} {st : LineCache}
    {ck : CkRes} {v : Option BlameInfo} (hck : env.computeKey p = some ck)
    (hl : lruLookup (cacheKeyOf p l ck.key) st = some v) :
    blameSingleLineCached env p l st =
      (v, eraseKeyL (cacheKeyOf p l ck.key) st ++ [(cacheKeyOf p l ck.key, v)], false) := by
  rw [blameSingleLineCached, hck]
  simp only [lruGet, hl]

/-! ### Claim C2 -/

/-- C2: two consecutive blame queries for the same (path, line) under an
unchanged environment (hence the same volatility token) never perform a
second external blame invocation — the second is answered from the cache
with the same result; and two queries from a fresh cache whose
(path, line, token) triples differ in any component — a different path, a
different line, or the same path and line with a volatility token that
changed between the queries (the environment may differ between the two
calls, as it does when HEAD or the file metadata move) — each perform their
own external invocation.  The token side conditions (no `::` substring, no
leading `:`) hold for the JSON-object token strings `computeKey` builds. -/
theorem c2_cache_query_correctness :
    (∀ (env : BlameEnv) (p : Str) (l : Nat) (st : LineCache) (ck : CkRes),
      env.computeKey p = some ck →
      (blameSingleLineCached env p l (blameSingleLineCached env p l st).2.1).2.2 = false ∧
      (blameSingleLineCached env p l (blameSingleLineCached env p l st).2.1).1 =
        (blameSingleLineCached env p l st).1) ∧
    (∀ (env1 env2 : BlameEnv) (p1 p2 : Str) (l1 l2 : Nat) (ck1 ck2 : CkRes),
      env1.computeKey p1 = some ck1 → env2.computeKey p2 = some ck2 →
      hasCC ck1.key = false → ck1.key.head? ≠ some ':' →
      hasCC ck2.key = false → ck2.key.head? ≠ some ':' →
      ¬(p1 = p2 ∧ l1 = l2 ∧ ck1.key = ck2.key) →
      (blameSingleLineCached env1 p1 l1 []).2.2 = true ∧
      (blameSingleLineCached env2 p2 l2 (blameSingleLineCached env1 p1 l1 []).2.1).2.2 = true) := by
  constructor
  · intro env p l st ck hck
    rcases hl1 : lruLookup (cacheKeyOf p l ck.key) st with _ | v
    · rw [blameCached_miss hck hl1]
      have hl2 : lruLookup (cacheKeyOf p l ck.key)
          (lruSet lineCacheMax (cacheKeyOf p l ck.key) (env.blame ck.root ck.rel l) st) =
          some (env.blame ck.root ck.rel l) :=
        lruLookup_lruSet_self (by decide) _ _ _
      rw [blameCached_hit hck hl2]
      exact ⟨rfl, rfl⟩
    · rw [blameCached_hit hck hl1]
      have hl2 : lruLookup (cacheKeyOf p l ck.key)
          (eraseKeyL (cacheKeyOf p l ck.key) st ++ [(cacheKeyOf p l ck.key, v)]) = some v :=
        lruLookup_append_last (eraseKeyL_no_key _ st)
      rw [blameCached_hit hck hl2]
      exact ⟨rfl, rfl⟩
  · intro env1 env2 p1 p2 l1 l2 ck1 ck2 hck1 hck2 h1a h1b h2a h2b hne
    have hkey : ¬ cacheKeyOf p1 l1 ck1.key = cacheKeyOf p2 l2 ck2.key := by
      intro hc
      obtain ⟨hp, hl, hk⟩ := cacheKeyOf_inj h1a h1b h2a h2b hc
      exact hne ⟨hp, hl, hk⟩
    have hm1 : lruLookup (cacheKeyOf p1 l1 ck1.key) ([] : LineCache) = none := rfl
    rw [blameCached_miss hck1 hm1]
    refine ⟨rfl, ?_⟩
    have hcache1 : lruSet lineCacheMax (cacheKeyOf p1 l1 ck1.key)
        (env1.blame ck1.root ck1.rel l1) ([] : LineCache) =
        [(cacheKeyOf p1 l1 ck1.key, env1.blame ck1.root ck1.rel l1)] := by
      rw [lruSet]
      rfl
    rw [hcache1]
    have hm2 : lruLookup (cacheKeyOf p2 l2 ck2.key)
        [(cacheKeyOf p1 l1 ck1.key, env1.blame ck1.root ck1.rel l1)] = none := by
      rw [lruLookup, if_neg, lruLookup]
      exact hkey
    rw [blameCached_miss hck2 hm2]

/-- Witness for C2: a repeated identical query hits the cache, and a pair of
queries for the *same path and line* whose volatility token changed between
the calls (the environment differs) both invoke externally. -/
theorem c2_cache_query_correctness_witness :
    (blameSingleLineCached
      { computeKey := fun q => some { root := q, rel := q, key := '{' :: q },
        blame := fun _ _ _ => none }
      (jstr "a") 1
      (blameSingleLineCached
        { computeKey := fun q => some { root := q, rel := q, key := '{' :: q },
          blame := fun _ _ _ => none }
        (jstr "a") 1 []).2.1).2.2 = false ∧
    (blameSingleLineCached
      { computeKey := fun _ => some { root := jstr "r", rel := jstr "f", key := jstr "{x}" },
        blame := fun _ _ _ => none }
      (jstr "a") 1 []).2.2 = true ∧
    (blameSingleLineCached
      { computeKey := fun _ => some { root := jstr "r", rel := jstr "f", key := jstr "{y}" },
        blame := fun _ _ _ => none }
      (jstr "a") 1
      (blameSingleLineCached
        { computeKey := fun _ => some { root := jstr "r", rel := jstr "f", key := jstr "{x}" },
          blame := fun _ _ _ => none }
        (jstr "a") 1 []).2.1).2.2 = true :=
  ⟨(c2_cache_query_correctness.1
      { computeKey := fun q => some { root := q, rel := q, key := '{' :: q },
        blame := fun _ _ _ => none }
      (jstr "a") 1 [] { root := jstr "a", rel := jstr "a", key := '{' :: jstr "a" } rfl).1,
   (c2_cache_query_correctness.2
      { computeKey := fun _ => some { root := jstr "r", rel := jstr "f", key := jstr "{x}" },
        blame := fun _ _ _ => none }
      { computeKey := fun _ => some { root := jstr "r", rel := jstr "f", key := jstr "{y}" },
        blame := fun _ _ _ => none }
      (jstr "a") (jstr "a") 1 1
      { root := jstr "r", rel := jstr "f", key := jstr "{x}" }
      { root := jstr "r", rel := jstr "f", key := jstr "{y}" }
      rfl rfl (by decide) (by decide) (by decide) (by decide) (by decide)).1,
   (c2_cache_query_correctness.2
      { computeKey := fun _ => some { root := jstr "r", rel := jstr "f", key := jstr "{x}" },
        blame := fun _ _ _ => none }
      { computeKey := fun _ => some { root := jstr "r", rel := jstr "f", key := jstr "{y}" },
        blame := fun _ _ _ => none }
      (jstr "a") (jstr "a") 1 1
      { root := jstr "r", rel := jstr "f", key := jstr "{x}" }
      { root := jstr "r", rel := jstr "f", key := jstr "{y}" }
      rfl rfl (by decide) (by decide) (by decide) (by decide) (by decide)).2⟩
